import Mathlib

/-!
Shallow embedding of `react-component-tree-generator.py`.

The program is a linear pipeline: regex-based extraction of capitalized
JSX-like tags and of import statements, adjacency construction keyed by
file-derived component names, in-degree based root detection, and a
recursive markdown rendering guarded by a per-path visited set.

File contents are modelled as `Except String String` (a failed read carries
the exception message); Python's `print` writes to standard output, so each
extraction function returns its value together with the list of lines it
writes to standard output and to standard error.  Python sets are modelled
as duplicate-free lists (membership is all the program observes, except for
iteration, whose order Python leaves unspecified; the model fixes first
insertion order).  Python dicts are association lists in insertion order.

The three regexes of the source contain no quantifier whose matched class
overlaps the character that must follow it, so Python's greedy backtracking
search coincides with maximal-munch matching; the matchers below implement
maximal munch, and `re.findall`'s scan (try each position left to right,
resume after the end of each match) is implemented by the `scan*`
functions.
-/

set_option autoImplicit false

namespace RCTG

/-- Character class `[A-Z]` of the source regexes. -/
def isUpperA (c : Char) : Bool :=
  'A' ≤ c && c ≤ 'Z'

/-- Character class `[a-zA-Z0-9_]` of the source regexes. -/
def isWordChar (c : Char) : Bool :=
  ('A' ≤ c && c ≤ 'Z') || ('a' ≤ c && c ≤ 'z') || ('0' ≤ c && c ≤ '9') || c == '_'

/-- Python's regex class `\s` (ASCII range). -/
def isPySpace (c : Char) : Bool :=
  c == ' ' || c == '\t' || c == '\n' || c == '\r' || c == '\x0b' || c == '\x0c'

/-- Character class of `['\"]` in the source regexes: a single or double quote. -/
def isQuote (c : Char) : Bool :=
  c == '\'' || c == '"'

/-- Fueled left-to-right scan of `re.findall(r'<([A-Z][a-zA-Z0-9_]*)', content)`:
at each `<` followed by an uppercase letter, the maximal run of word
characters is captured and the scan resumes after it; otherwise the scan
advances one character.  Each step consumes at least one character, so fuel
equal to the input length is exact; `scanTags` below supplies it, and
`scanTags_eq` recovers the fuel-free recursive equation. -/
def scanTagsGas : Nat → List Char → List (List Char)
  | 0, _ => []
  | _ + 1, [] => []
  | _ + 1, [_] => []
  | gas + 1, x :: c :: rest' =>
    if x = '<' then
      if isUpperA c then
        (c :: rest'.takeWhile isWordChar) :: scanTagsGas gas (rest'.dropWhile isWordChar)
      else
        scanTagsGas gas (c :: rest')
    else scanTagsGas gas (c :: rest')

/-- The scan of `re.findall(r'<([A-Z][a-zA-Z0-9_]*)', content)`. -/
def scanTags (l : List Char) : List (List Char) :=
  scanTagsGas l.length l

/-- Matcher for a literal character sequence; returns the remaining input. -/
def eatLit : List Char → List Char → Option (List Char)
  | [], l => some l
  | _ :: _, [] => none
  | c :: cs, x :: xs => if x = c then eatLit cs xs else none

/-- Matcher for a single character of class `p`; returns it and the rest. -/
def eatClass (p : Char → Bool) : List Char → Option (Char × List Char)
  | [] => none
  | c :: cs => if p c then some (c, cs) else none

/-- Matcher for a nonempty maximal run of characters satisfying `p`
(the greedy `X+` of the source regexes, whose follower set is always
disjoint from `X` there); returns the captured run and the remaining
input. -/
def eatWhile1 (p : Char → Bool) : List Char → Option (List Char × List Char)
  | [] => none
  | c :: cs => if p c then some (c :: cs.takeWhile p, cs.dropWhile p) else none

/-- Attempt to match the default-import regex
`import\s+([A-Z][a-zA-Z0-9_]*)\s+from\s+['\"]([^'\"]+)['\"]` at the head of
the input; on success returns the two captured groups and the rest. -/
def matchDefaultImport (l : List Char) : Option ((List Char × List Char) × List Char) :=
  (eatLit "import".data l).bind fun r1 =>
  (eatWhile1 isPySpace r1).bind fun s1 =>
  (eatClass isUpperA s1.2).bind fun n1 =>
  (eatWhile1 isPySpace (n1.2.dropWhile isWordChar)).bind fun s2 =>
  (eatLit "from".data s2.2).bind fun r6 =>
  (eatWhile1 isPySpace r6).bind fun s3 =>
  (eatClass isQuote s3.2).bind fun q1 =>
  (eatWhile1 (fun c => !isQuote c) q1.2).bind fun m1 =>
  (eatClass isQuote m1.2).bind fun q2 =>
  some ((n1.1 :: n1.2.takeWhile isWordChar, m1.1), q2.2)

/-- Attempt to match the named-import regex
`import\s*\x7b([^\x7d]+)\x7d\s*from\s*['\"]([^'\"]+)['\"]` at the head of
the input; on success returns the two captured groups and the rest. -/
def matchNamedImport (l : List Char) : Option ((List Char × List Char) × List Char) :=
  (eatLit "import".data l).bind fun r1 =>
  (eatClass (fun c => c == '\x7b') (r1.dropWhile isPySpace)).bind fun b1 =>
  (eatWhile1 (fun c => !(c == '\x7d')) b1.2).bind fun g1 =>
  (eatClass (fun c => c == '\x7d') g1.2).bind fun b2 =>
  (eatLit "from".data (b2.2.dropWhile isPySpace)).bind fun r7 =>
  (eatClass isQuote (r7.dropWhile isPySpace)).bind fun q1 =>
  (eatWhile1 (fun c => !isQuote c) q1.2).bind fun m1 =>
  (eatClass isQuote m1.2).bind fun q2 =>
  some ((g1.1, m1.1), q2.2)

theorem eatLit_length {cs l r : List Char} (h : eatLit cs l = some r) :
    r.length + cs.length = l.length := by
  induction cs generalizing l with
  | nil => simp [eatLit] at h; simp [h]
  | cons c cs ih =>
    cases l with
    | nil => simp [eatLit] at h
    | cons x xs =>
      simp only [eatLit] at h
      split at h
      · have := ih h
        simp only [List.length_cons]
        omega
      · exact absurd h (by simp)

theorem eatClass_length {p : Char → Bool} {l : List Char} {c : Char} {r : List Char}
    (h : eatClass p l = some (c, r)) : r.length + 1 = l.length := by
  cases l with
  | nil => simp [eatClass] at h
  | cons x xs =>
    simp only [eatClass] at h
    split at h
    · simp only [Option.some.injEq, Prod.mk.injEq] at h
      simp [← h.2]
    · exact absurd h (by simp)

theorem eatWhile1_length {p : Char → Bool} {l : List Char} {t r : List Char}
    (h : eatWhile1 p l = some (t, r)) : r.length < l.length := by
  cases l with
  | nil => simp [eatWhile1] at h
  | cons c cs =>
    simp only [eatWhile1] at h
    split at h
    · simp only [Option.some.injEq, Prod.mk.injEq] at h
      have hr : r = cs.dropWhile p := h.2.symm
      subst hr
      have : (cs.dropWhile p).length ≤ cs.length := (List.dropWhile_suffix p).length_le
      simp only [List.length_cons]
      omega
    · exact absurd h (by simp)

theorem matchDefaultImport_length {l : List Char} {g : List Char × List Char}
    {r : List Char} (h : matchDefaultImport l = some (g, r)) :
    r.length < l.length := by
  rw [matchDefaultImport] at h
  simp only [Option.bind_eq_some, Option.some.injEq, Prod.mk.injEq] at h
  obtain ⟨r1, h1, s1, h2, n1, h3, s2, h4, r6, h5, s3, h6, q1, h7, m1, h8, q2, h9, hg, hr⟩ := h
  subst hr
  have e1 := eatLit_length h1
  have e2 := eatWhile1_length h2
  have e3 := eatClass_length h3
  have ed : (n1.2.dropWhile isWordChar).length ≤ n1.2.length :=
    (List.dropWhile_suffix isWordChar).length_le
  have e4 := eatWhile1_length h4
  have e5 := eatLit_length h5
  have e6 := eatWhile1_length h6
  have e7 := eatClass_length h7
  have e8 := eatWhile1_length h8
  have e9 := eatClass_length h9
  simp only [String.data] at e1 e5
  simp only [List.length_cons] at *
  omega

theorem matchNamedImport_length {l : List Char} {g : List Char × List Char}
    {r : List Char} (h : matchNamedImport l = some (g, r)) :
    r.length < l.length := by
  rw [matchNamedImport] at h
  simp only [Option.bind_eq_some, Option.some.injEq, Prod.mk.injEq] at h
  obtain ⟨r1, h1, b1, h2, g1, h3, b2, h4, r7, h5, q1, h6, m1, h7, q2, h8, hg, hr⟩ := h
  subst hr
  have e1 := eatLit_length h1
  have ed1 : (r1.dropWhile isPySpace).length ≤ r1.length :=
    (List.dropWhile_suffix isPySpace).length_le
  have e2 := eatClass_length h2
  have e3 := eatWhile1_length h3
  have e4 := eatClass_length h4
  have ed2 : (b2.2.dropWhile isPySpace).length ≤ b2.2.length :=
    (List.dropWhile_suffix isPySpace).length_le
  have e5 := eatLit_length h5
  have ed3 : (r7.dropWhile isPySpace).length ≤ r7.length :=
    (List.dropWhile_suffix isPySpace).length_le
  have e6 := eatClass_length h6
  have e7 := eatWhile1_length h7
  have e8 := eatClass_length h8
  simp only [String.data] at e1 e5
  simp only [List.length_cons] at *
  omega

/-- Fueled left-to-right scan of
`re.findall(r"import\s+([A-Z][a-zA-Z0-9_]*)\s+from\s+['\"]([^'\"]+)['\"]", content)`:
non-overlapping leftmost matches, as pairs (imported name, module string). -/
def scanDefaultImportsGas : Nat → List Char → List (List Char × List Char)
  | 0, _ => []
  | _ + 1, [] => []
  | gas + 1, x :: rest =>
    match matchDefaultImport (x :: rest) with
    | some (g, r) => g :: scanDefaultImportsGas gas r
    | none => scanDefaultImportsGas gas rest

/-- The scan of the default-import regex over the whole content. -/
def scanDefaultImports (l : List Char) : List (List Char × List Char) :=
  scanDefaultImportsGas l.length l

/-- Fueled left-to-right scan of
`re.findall(r"import\s*\x7b([^\x7d]+)\x7d\s*from\s*['\"]([^'\"]+)['\"]", content)`:
non-overlapping leftmost matches, as pairs (brace group, module string). -/
def scanNamedImportsGas : Nat → List Char → List (List Char × List Char)
  | 0, _ => []
  | _ + 1, [] => []
  | gas + 1, x :: rest =>
    match matchNamedImport (x :: rest) with
    | some (g, r) => g :: scanNamedImportsGas gas r
    | none => scanNamedImportsGas gas rest

/-- The scan of the named-import regex over the whole content. -/
def scanNamedImports (l : List Char) : List (List Char × List Char) :=
  scanNamedImportsGas l.length l

theorem scanTagsGas_nil (gas : Nat) : scanTagsGas gas [] = [] := by
  cases gas <;> rfl

theorem scanTagsGas_single (gas : Nat) (x : Char) : scanTagsGas gas [x] = [] := by
  cases gas <;> rfl

theorem scanTagsGas_stable {g1 g2 : Nat} {l : List Char}
    (h1 : l.length ≤ g1) (h2 : l.length ≤ g2) :
    scanTagsGas g1 l = scanTagsGas g2 l := by
  induction g1 generalizing g2 l with
  | zero =>
    have : l = [] := List.length_eq_zero.mp (Nat.le_zero.mp h1)
    subst this
    rw [scanTagsGas_nil, scanTagsGas_nil]
  | succ n ih =>
    cases l with
    | nil => rw [scanTagsGas_nil, scanTagsGas_nil]
    | cons x rest =>
      cases g2 with
      | zero => simp at h2
      | succ m =>
        cases rest with
        | nil => rw [scanTagsGas_single, scanTagsGas_single]
        | cons c rest' =>
          simp only [scanTagsGas]
          simp only [List.length_cons] at h1 h2
          by_cases hx : x = '<'
          · rw [if_pos hx, if_pos hx]
            by_cases hc : isUpperA c = true
            · rw [if_pos hc, if_pos hc]
              have hd : (rest'.dropWhile isWordChar).length ≤ rest'.length :=
                (List.dropWhile_suffix isWordChar).length_le
              rw [@ih m (rest'.dropWhile isWordChar) (by omega) (by omega)]
            · rw [if_neg hc, if_neg hc]
              exact @ih m (c :: rest') (by simp; omega) (by simp; omega)
          · rw [if_neg hx, if_neg hx]
            exact @ih m (c :: rest') (by simp; omega) (by simp; omega)

theorem scanTags_nil : scanTags [] = [] := rfl

theorem scanTags_single (x : Char) : scanTags [x] = [] := rfl

/-- The fuel-free recursive equation of the tag scan: at a `<` followed by
an uppercase letter the maximal word run is captured and the scan resumes
after it, and in every other case the scan advances one character. -/
theorem scanTags_eq (x c : Char) (rest' : List Char) :
    scanTags (x :: c :: rest') =
      (if x = '<' then
        if isUpperA c then
          (c :: rest'.takeWhile isWordChar) :: scanTags (rest'.dropWhile isWordChar)
        else
          scanTags (c :: rest')
      else scanTags (c :: rest')) := by
  show scanTagsGas (rest'.length + 1 + 1) (x :: c :: rest') = _
  simp only [scanTags, scanTagsGas]
  by_cases hx : x = '<'
  · rw [if_pos hx, if_pos hx]
    by_cases hc : isUpperA c = true
    · rw [if_pos hc, if_pos hc]
      have hd : (rest'.dropWhile isWordChar).length ≤ rest'.length :=
        (List.dropWhile_suffix isWordChar).length_le
      rw [@scanTagsGas_stable (rest'.length + 1) (rest'.dropWhile isWordChar).length
        (rest'.dropWhile isWordChar) (by omega) (le_refl _)]
    · rw [if_neg hc, if_neg hc]
      exact @scanTagsGas_stable (rest'.length + 1) (rest'.length + 1) (c :: rest')
        (by simp) (by simp)
  · rw [if_neg hx, if_neg hx]
    exact @scanTagsGas_stable (rest'.length + 1) (rest'.length + 1) (c :: rest')
      (by simp) (by simp)

theorem scanDefaultImportsGas_nil (gas : Nat) : scanDefaultImportsGas gas [] = [] := by
  cases gas <;> rfl

theorem scanDefaultImportsGas_stable {g1 g2 : Nat} {l : List Char}
    (h1 : l.length ≤ g1) (h2 : l.length ≤ g2) :
    scanDefaultImportsGas g1 l = scanDefaultImportsGas g2 l := by
  induction g1 generalizing g2 l with
  | zero =>
    have : l = [] := List.length_eq_zero.mp (Nat.le_zero.mp h1)
    subst this
    rw [scanDefaultImportsGas_nil, scanDefaultImportsGas_nil]
  | succ n ih =>
    cases l with
    | nil => rw [scanDefaultImportsGas_nil, scanDefaultImportsGas_nil]
    | cons x rest =>
      cases g2 with
      | zero => simp at h2
      | succ m =>
        simp only [scanDefaultImportsGas]
        simp only [List.length_cons] at h1 h2
        cases hm : matchDefaultImport (x :: rest) with
        | some p =>
          obtain ⟨g, r⟩ := p
          have := matchDefaultImport_length hm
          simp only [List.length_cons] at this
          show g :: scanDefaultImportsGas n r = g :: scanDefaultImportsGas m r
          rw [@ih m r (by omega) (by omega)]
        | none =>
          show scanDefaultImportsGas n rest = scanDefaultImportsGas m rest
          exact @ih m rest (by omega) (by omega)

/-- The fuel-free recursive equation of the default-import scan. -/
theorem scanDefaultImports_eq (l : List Char) :
    scanDefaultImports l = (match l with
      | [] => []
      | x :: rest =>
        match matchDefaultImport (x :: rest) with
        | some (g, r) => g :: scanDefaultImports r
        | none => scanDefaultImports rest) := by
  cases l with
  | nil => rfl
  | cons x rest =>
    show scanDefaultImportsGas (rest.length + 1) (x :: rest) = _
    simp only [scanDefaultImports, scanDefaultImportsGas]
    cases hm : matchDefaultImport (x :: rest) with
    | some p =>
      obtain ⟨g, r⟩ := p
      have := matchDefaultImport_length hm
      simp only [List.length_cons] at this
      show g :: scanDefaultImportsGas rest.length r = g :: scanDefaultImportsGas r.length r
      rw [@scanDefaultImportsGas_stable (rest.length) r.length r (by omega) (le_refl _)]
    | none =>
      show scanDefaultImportsGas rest.length rest = scanDefaultImportsGas rest.length rest
      rfl

theorem scanNamedImportsGas_nil (gas : Nat) : scanNamedImportsGas gas [] = [] := by
  cases gas <;> rfl

theorem scanNamedImportsGas_stable {g1 g2 : Nat} {l : List Char}
    (h1 : l.length ≤ g1) (h2 : l.length ≤ g2) :
    scanNamedImportsGas g1 l = scanNamedImportsGas g2 l := by
  induction g1 generalizing g2 l with
  | zero =>
    have : l = [] := List.length_eq_zero.mp (Nat.le_zero.mp h1)
    subst this
    rw [scanNamedImportsGas_nil, scanNamedImportsGas_nil]
  | succ n ih =>
    cases l with
    | nil => rw [scanNamedImportsGas_nil, scanNamedImportsGas_nil]
    | cons x rest =>
      cases g2 with
      | zero => simp at h2
      | succ m =>
        simp only [scanNamedImportsGas]
        simp only [List.length_cons] at h1 h2
        cases hm : matchNamedImport (x :: rest) with
        | some p =>
          obtain ⟨g, r⟩ := p
          have := matchNamedImport_length hm
          simp only [List.length_cons] at this
          show g :: scanNamedImportsGas n r = g :: scanNamedImportsGas m r
          rw [@ih m r (by omega) (by omega)]
        | none =>
          show scanNamedImportsGas n rest = scanNamedImportsGas m rest
          exact @ih m rest (by omega) (by omega)

/-- The fuel-free recursive equation of the named-import scan. -/
theorem scanNamedImports_eq (l : List Char) :
    scanNamedImports l = (match l with
      | [] => []
      | x :: rest =>
        match matchNamedImport (x :: rest) with
        | some (g, r) => g :: scanNamedImports r
        | none => scanNamedImports rest) := by
  cases l with
  | nil => rfl
  | cons x rest =>
    show scanNamedImportsGas (rest.length + 1) (x :: rest) = _
    simp only [scanNamedImports, scanNamedImportsGas]
    cases hm : matchNamedImport (x :: rest) with
    | some p =>
      obtain ⟨g, r⟩ := p
      have := matchNamedImport_length hm
      simp only [List.length_cons] at this
      show g :: scanNamedImportsGas rest.length r = g :: scanNamedImportsGas r.length r
      rw [@scanNamedImportsGas_stable (rest.length) r.length r (by omega) (le_refl _)]
    | none =>
      show scanNamedImportsGas rest.length rest = scanNamedImportsGas rest.length rest
      rfl

/-- Python's `str.strip()`: remove leading and trailing whitespace. -/
def pyStrip (u : List Char) : List Char :=
  ((u.dropWhile isPySpace).reverse.dropWhile isPySpace).reverse

/-- Python's `str.split(',')`. -/
def splitComma : List Char → List (List Char)
  | [] => [[]]
  | c :: rest =>
    if c = ',' then [] :: splitComma rest
    else
      match splitComma rest with
      | [] => [[c]]
      | grp :: gs => (c :: grp) :: gs

/-- The part of the input before its first occurrence of `" as "`
(Python's `s.split(' as ')[0]`). -/
def beforeAs : List Char → List Char
  | [] => []
  | c :: rest =>
    if " as ".data.isPrefixOf (c :: rest) then [] else c :: beforeAs rest

/-- Source line `comp.strip().split(' as ')[0].strip()`: a named-import
item resolves to the original exported name, not the alias. -/
def parseNamedComp (u : List Char) : List Char :=
  pyStrip (beforeAs (pyStrip u))

/-- The identifiers the source adds to `ignored` for one file content:
default-import names whose module is in `ignore_libs`, then for each
named-import group with module in `ignore_libs` the parsed nonempty item
names.  A Python set is modelled as the deduplicated insertion list. -/
def ignoredOf (content : String) (libs : List String) : List String :=
  let fromDefault := ((scanDefaultImports content.data).filter
    (fun p => libs.contains (⟨p.2⟩ : String))).map (fun p => (⟨p.1⟩ : String))
  let fromNamed := ((scanNamedImports content.data).filter
    (fun p => libs.contains (⟨p.2⟩ : String))).flatMap
    (fun p => ((splitComma p.1).map parseNamedComp).filterMap
      (fun u => if u.isEmpty then none else some (⟨u⟩ : String)))
  (fromDefault ++ fromNamed).dedup

instance : DecidableEq (Except String String) := fun a b =>
  match a, b with
  | .ok x, .ok y => decidable_of_iff (x = y) (by simp)
  | .error x, .error y => decidable_of_iff (x = y) (by simp)
  | .ok _, .error _ => isFalse (by simp)
  | .error _, .ok _ => isFalse (by simp)

/-- A discovered source file: its path and the outcome of reading it
(`Except.error e` models a raised exception with message `e`). -/
structure SFile where
  path : String
  content : Except String String
deriving DecidableEq

/-- Value returned by an extraction function, with the lines it printed:
`print(...)` writes to standard output, nothing is ever written to
standard error by the source. -/
structure Extracted (α : Type) where
  val : α
  stdout : List String
  stderr : List String

instance {α : Type} [DecidableEq α] : DecidableEq (Extracted α) := fun a b =>
  decidable_of_iff (a.val = b.val ∧ a.stdout = b.stdout ∧ a.stderr = b.stderr)
    (by cases a; cases b; simp)

/-- Source `extract_imported_ignored_components`: on a read failure the
exception is caught, a message is printed (to standard output, the
source's `print` has no `file` argument) and the empty set is returned. -/
def extract_imported_ignored_components (f : SFile) (libs : List String) :
    Extracted (List String) :=
  match f.content with
  | .ok c => ⟨ignoredOf c libs, [], []⟩
  | .error e => ⟨[], ["Error reading imports in " ++ f.path ++ ": " ++ e], []⟩

/-- Capitalized tag names found in a content string. -/
def tagNames (c : String) : List String :=
  (scanTags c.data).map (fun u => (⟨u⟩ : String))

/-- Source `extract_used_components`: the set of capitalized tag names
minus the ignored-import set; a read failure is caught, printed to
standard output, and yields the empty set (the nested call never runs). -/
def extract_used_components (f : SFile) (libs : List String) :
    Extracted (List String) :=
  match f.content with
  | .ok c =>
    let r := extract_imported_ignored_components f libs
    ⟨(tagNames c).dedup.filter (fun b => !(r.val.contains b)), r.stdout, r.stderr⟩
  | .error e => ⟨[], ["Error reading " ++ f.path ++ ": " ++ e], []⟩

/-- The used-set of one file (the value part of `extract_used_components`). -/
def usedOf (f : SFile) (libs : List String) : List String :=
  (extract_used_components f libs).val

/-- Source `extract_component_name` is
`os.path.splitext(os.path.basename(file_path))[0]`; `basenameCs` keeps the
part after the last `/`. -/
def basenameCs (p : List Char) : List Char :=
  (p.reverse.takeWhile (fun c => !(c == '/'))).reverse

/-- Root part of `os.path.splitext`: strip the suffix from the last dot,
unless every character before that dot is itself a dot (a leading-dots
name has no extension). -/
def splitextRoot (b : List Char) : List Char :=
  match b.reverse.dropWhile (fun c => !(c == '.')) with
  | [] => b
  | _ :: pre => if pre.all (fun c => c == '.') then b else pre.reverse

/-- Source `extract_component_name`. -/
def extract_component_name (p : String) : String :=
  ⟨splitextRoot (basenameCs p.data)⟩

/-- The set of component names discovered in the project
(`component_set` in the source; membership is all that is used). -/
def componentNames (files : List SFile) : List String :=
  files.map (fun f => extract_component_name f.path)

/-- One `graph[comp].add(used_comp)` on the association-list model of the
defaultdict: the key is materialized on first addition, and a value set is
a duplicate-free list. -/
def addEdge : List (String × List String) → String → String → List (String × List String)
  | [], k, t => [(k, [t])]
  | (k', s) :: rest, k, t =>
    if k' = k then (k', if s.contains t then s else s ++ [t]) :: rest
    else (k', s) :: addEdge rest k t

/-- Source `build_component_graph` from the discovered files: for each
file, each used name passing the project-only filter is added as an edge
from the file's component name. -/
def build_component_graph (files : List SFile) (libs : List String)
    (project_only : Bool) : List (String × List String) :=
  files.foldl (fun g f =>
    (usedOf f libs).foldl (fun g t =>
      if !project_only || (componentNames files).contains t then
        addEdge g (extract_component_name f.path) t
      else g) g) []

/-- Reading access `in_degree[node]` on the defaultdict: materialize the
key with value 0 if absent. -/
def ensureKey : List (String × Nat) → String → List (String × Nat)
  | [], k => [(k, 0)]
  | (k', n) :: rest, k =>
    if k' = k then (k', n) :: rest else (k', n) :: ensureKey rest k

/-- Update `in_degree[child] += 1` on the defaultdict. -/
def bump : List (String × Nat) → String → List (String × Nat)
  | [], k => [(k, 1)]
  | (k', n) :: rest, k =>
    if k' = k then (k', n + 1) :: rest else (k', n) :: bump rest k

/-- The in-degree map of `find_roots`: every graph key gets an entry
(degree 0), then every edge target is incremented (acquiring an entry if
absent). -/
def inDegreeOf (g : List (String × List String)) : List (String × Nat) :=
  let d0 := g.foldl (fun d p => ensureKey d p.1) []
  g.foldl (fun d p => p.2.foldl (fun d c => bump d c) d) d0

/-- Source `find_roots`: the tracked nodes whose in-degree is 0, in map
order. -/
def find_roots (g : List (String × List String)) : List String :=
  ((inDegreeOf g).filter (fun p => p.2 == 0)).map Prod.fst

/-- Lexicographic comparison of character lists by code point. -/
def charListLe : List Char → List Char → Bool
  | [], _ => true
  | _ :: _, [] => false
  | a :: as, b :: bs => if a < b then true else if a = b then charListLe as bs else false

/-- Python's `<=` on strings: lexicographic by code point. -/
def strLeb (a b : String) : Bool :=
  charListLe a.data b.data

/-- Insert into a sorted list (auxiliary to `sortStr`). -/
def insertSorted (x : String) : List String → List String
  | [] => [x]
  | y :: ys => if strLeb x y then x :: y :: ys else y :: insertSorted x ys

/-- Python's `sorted` on strings (lexicographic by code point). -/
def sortStr : List String → List String
  | [] => []
  | x :: xs => insertSorted x (sortStr xs)

/-- Dictionary access `graph.get(node, [])`. -/
def lookupG (g : List (String × List String)) (n : String) : List String :=
  match g.find? (fun p => p.1 == n) with
  | some p => p.2
  | none => []

/-- The "  " * indent bullet indentation. -/
def spacesN : Nat → String
  | 0 => ""
  | n + 1 => "  " ++ spacesN n

/-- Fueled `generate_markdown_tree`: emit the node's bullet; if the node
was already visited on this path stop, otherwise recurse into the sorted
children with a copy of the visited set extended by the node.  The
recursion depth is bounded by the number of graph keys outside `visited`,
so the fuel supplied by the wrapper below is never exhausted
(`genMdGas_stable`). -/
def genMdGas : Nat → List (String × List String) → String → Nat → Finset String → String
  | 0, _, _, _, _ => ""
  | gas + 1, g, node, indent, visited =>
    let md := spacesN indent ++ "- " ++ node ++ "\n"
    if node ∈ visited then md
    else md ++ String.join ((sortStr (lookupG g node)).map
      (fun c => genMdGas gas g c (indent + 1) (insert node visited)))

/-- Source `generate_markdown_tree` (default arguments `indent=0`,
`visited=None → set()` are supplied at call sites). -/
def generate_markdown_tree (g : List (String × List String)) (node : String)
    (indent : Nat) (visited : Finset String) : String :=
  genMdGas (g.length + 1) g node indent visited

/-- The front-matter lines of `main`. -/
def frontMatter : List String :=
  ["---", "title: Component Tree", "markmap:", "  colorFreezeLevel: 4", "---", ""]

/-- The markdown content `main` writes for a given graph: front matter,
then per sorted root a heading, a blank line and the rendered tree,
joined with newlines. -/
def md_content (g : List (String × List String)) : String :=
  String.intercalate "\n" (frontMatter ++ (sortStr (find_roots g)).flatMap
    (fun root => ["## " ++ root, "", generate_markdown_tree g root 0 ∅]))

/-- The whole pipeline of `main` from the discovered files to the written
markdown content. -/
def mainContent (files : List SFile) (libs : List String) (project_only : Bool) : String :=
  md_content (build_component_graph files libs project_only)

theorem string_foldl_append (l : List String) (acc : String) :
    l.foldl (fun r s => r ++ s) acc = acc ++ String.join l := by
  induction l generalizing acc with
  | nil => simp [String.join, String.append_empty]
  | cons x l ih =>
    show l.foldl (fun r s => r ++ s) (acc ++ x) = acc ++ String.join (x :: l)
    rw [ih]
    have : String.join (x :: l) = "" ++ x ++ String.join l := by
      show (x :: l).foldl (fun r s => r ++ s) "" = _
      show l.foldl (fun r s => r ++ s) ("" ++ x) = _
      rw [ih]
    rw [this]
    simp [String.append_assoc]

theorem join_cons (x : String) (l : List String) :
    String.join (x :: l) = x ++ String.join l := by
  show (x :: l).foldl (fun r s => r ++ s) "" = _
  show l.foldl (fun r s => r ++ s) ("" ++ x) = _
  rw [string_foldl_append]
  simp

theorem join_append (a b : List String) :
    String.join (a ++ b) = String.join a ++ String.join b := by
  induction a with
  | nil => simp [String.join]
  | cons x a ih => simp only [List.cons_append, join_cons, ih, String.append_assoc]

/-- Keys of the graph association list. -/
def keysOf (g : List (String × List String)) : List String :=
  g.map Prod.fst

theorem insertSorted_perm (x : String) (l : List String) :
    (insertSorted x l).Perm (x :: l) := by
  induction l with
  | nil => exact List.Perm.refl _
  | cons y ys ih =>
    show (if strLeb x y then x :: y :: ys else y :: insertSorted x ys).Perm _
    by_cases h : strLeb x y
    · rw [if_pos h]
    · rw [if_neg h]
      exact (List.Perm.cons y ih).trans (List.Perm.swap x y ys)

theorem sortStr_perm (l : List String) : (sortStr l).Perm l := by
  induction l with
  | nil => exact List.Perm.refl _
  | cons x xs ih =>
    show (insertSorted x (sortStr xs)).Perm (x :: xs)
    exact (insertSorted_perm x (sortStr xs)).trans (List.Perm.cons x ih)

theorem mem_sortStr {a : String} {l : List String} : a ∈ sortStr l ↔ a ∈ l :=
  (sortStr_perm l).mem_iff

theorem lookupG_ne_nil_mem {g : List (String × List String)} {n : String}
    (h : lookupG g n ≠ []) : n ∈ keysOf g := by
  unfold lookupG at h
  cases hf : g.find? (fun p => p.1 == n) with
  | none => rw [hf] at h; exact absurd rfl h
  | some p =>
    have hp := List.find?_some hf
    have hmem := List.mem_of_find?_eq_some hf
    have : p.1 = n := by simpa using hp
    subst this
    exact List.mem_map.mpr ⟨p, hmem, rfl⟩

theorem card_sdiff_insert_lt {s v : Finset String} {n : String}
    (hn : n ∈ s) (hv : n ∉ v) : (s \ insert n v).card < (s \ v).card := by
  apply Finset.card_lt_card
  rw [Finset.ssubset_iff_of_subset]
  · exact ⟨n, Finset.mem_sdiff.mpr ⟨hn, hv⟩, by simp⟩
  · intro x hx
    rw [Finset.mem_sdiff] at hx ⊢
    exact ⟨hx.1, fun hxv => hx.2 (Finset.mem_insert_of_mem hxv)⟩

theorem card_sdiff_insert_le {s v : Finset String} {n : String}
    (hn : n ∈ s) : (s \ insert n v).card < s.card := by
  have hsub : s \ insert n v ⊆ s.erase n := by
    intro x hx
    rw [Finset.mem_sdiff] at hx
    exact Finset.mem_erase.mpr ⟨fun he => hx.2 (he ▸ Finset.mem_insert_self n v), hx.1⟩
  calc (s \ insert n v).card ≤ (s.erase n).card := Finset.card_le_card hsub
    _ < s.card := Finset.card_erase_lt_of_mem hn

theorem genMdGas_stable {gas1 gas2 : Nat} {g : List (String × List String)}
    {n : String} {i : Nat} {v : Finset String}
    (h1 : ((keysOf g).toFinset \ v).card < gas1)
    (h2 : ((keysOf g).toFinset \ v).card < gas2) :
    genMdGas gas1 g n i v = genMdGas gas2 g n i v := by
  induction gas1 generalizing gas2 n i v with
  | zero => omega
  | succ a ih =>
    cases gas2 with
    | zero => omega
    | succ b =>
      simp only [genMdGas]
      by_cases hv : n ∈ v
      · rw [if_pos hv, if_pos hv]
      · rw [if_neg hv, if_neg hv]
        congr 1
        congr 1
        apply List.map_congr_left
        intro c hc
        have hlk : lookupG g n ≠ [] := by
          intro hnil
          rw [mem_sortStr, hnil] at hc
          exact (List.not_mem_nil c) hc
        have hkey : n ∈ keysOf g := lookupG_ne_nil_mem hlk
        have hlt : (((keysOf g).toFinset) \ insert n v).card <
            (((keysOf g).toFinset) \ v).card :=
          card_sdiff_insert_lt (List.mem_toFinset.mpr hkey) hv
        exact ih (by omega) (by omega)

/-- The fuel-free recursive equation of `generate_markdown_tree`: emit the
bullet for the node; if the node is already on the current path stop,
otherwise append the renderings of the lexicographically sorted children
at the next indent, each with the extended copy of the visited set. -/
theorem generate_markdown_tree_eq (g : List (String × List String))
    (node : String) (indent : Nat) (visited : Finset String) :
    generate_markdown_tree g node indent visited =
      (if node ∈ visited then spacesN indent ++ "- " ++ node ++ "\n"
       else (spacesN indent ++ "- " ++ node ++ "\n") ++
         String.join ((sortStr (lookupG g node)).map
           (fun c => generate_markdown_tree g c (indent + 1) (insert node visited)))) := by
  have hcard : ((keysOf g).toFinset).card ≤ g.length := by
    calc ((keysOf g).toFinset).card ≤ (keysOf g).length := (keysOf g).toFinset_card_le
      _ = g.length := List.length_map g Prod.fst
  simp only [generate_markdown_tree, genMdGas]
  by_cases hv : node ∈ visited
  · rw [if_pos hv, if_pos hv]
  · rw [if_neg hv, if_neg hv]
    congr 1
    congr 1
    apply List.map_congr_left
    intro c hc
    have hlk : lookupG g node ≠ [] := by
      intro hnil
      rw [mem_sortStr, hnil] at hc
      exact (List.not_mem_nil c) hc
    have hkey : node ∈ keysOf g := lookupG_ne_nil_mem hlk
    have hlt : (((keysOf g).toFinset) \ insert node visited).card <
        ((keysOf g).toFinset).card :=
      card_sdiff_insert_le (List.mem_toFinset.mpr hkey)
    exact @genMdGas_stable g.length (g.length + 1) g c (indent + 1) (insert node visited)
      (by omega) (by omega)

/-- Fueled trace of the rendering: the list of (indent, node) bullets that
`genMdGas` emits, in emission order. -/
def mdTraceGas : Nat → List (String × List String) → String → Nat → Finset String → List (Nat × String)
  | 0, _, _, _, _ => []
  | gas + 1, g, node, indent, visited =>
    (indent, node) :: (if node ∈ visited then []
      else (sortStr (lookupG g node)).flatMap
        (fun c => mdTraceGas gas g c (indent + 1) (insert node visited)))

/-- The bullets emitted by `generate_markdown_tree`, in order. -/
def mdTrace (g : List (String × List String)) (node : String) (indent : Nat)
    (visited : Finset String) : List (Nat × String) :=
  mdTraceGas (g.length + 1) g node indent visited

/-- One rendered bullet line (with its trailing newline). -/
def bulletLine (p : Nat × String) : String :=
  spacesN p.1 ++ "- " ++ p.2 ++ "\n"

theorem genMdGas_eq_trace (gas : Nat) (g : List (String × List String))
    (n : String) (i : Nat) (v : Finset String) :
    genMdGas gas g n i v = String.join ((mdTraceGas gas g n i v).map bulletLine) := by
  induction gas generalizing n i v with
  | zero => rfl
  | succ a ih =>
    simp only [genMdGas, mdTraceGas]
    by_cases hv : n ∈ v
    · rw [if_pos hv, if_pos hv]
      simp [bulletLine, join_cons, String.join, String.append_empty]
    · rw [if_neg hv, if_neg hv]
      rw [List.map_cons, join_cons]
      congr 1
      induction sortStr (lookupG g n) with
      | nil => rfl
      | cons c cs ihc =>
        rw [List.flatMap_cons, List.map_cons, join_cons, List.map_append, join_append, ihc]
        congr 1
        exact ih c (i + 1) (insert n v)

/-- `generate_markdown_tree` is exactly the concatenation of its bullet
trace: one line of `2 * indent` spaces, a dash, the node name and a
newline per traced bullet. -/
theorem generate_markdown_tree_trace (g : List (String × List String))
    (node : String) (indent : Nat) (visited : Finset String) :
    generate_markdown_tree g node indent visited =
      String.join ((mdTrace g node indent visited).map bulletLine) :=
  genMdGas_eq_trace (g.length + 1) g node indent visited

theorem contains_iff (l : List String) (a : String) : l.contains a = true ↔ a ∈ l :=
  List.elem_iff

theorem lookupG_nil (n : String) : lookupG [] n = [] := rfl

theorem lookupG_cons (p : String × List String) (g : List (String × List String))
    (n : String) : lookupG (p :: g) n = if p.1 = n then p.2 else lookupG g n := by
  by_cases h : p.1 = n
  · unfold lookupG
    rw [List.find?_cons_of_pos _ (by simpa using h), if_pos h]
  · unfold lookupG
    rw [List.find?_cons_of_neg _ (by simpa using h), if_neg h]

theorem lookupG_addEdge (g : List (String × List String)) (k t n : String) :
    lookupG (addEdge g k t) n =
      if n = k then
        (if (lookupG g k).contains t then lookupG g k else lookupG g k ++ [t])
      else lookupG g n := by
  induction g with
  | nil =>
    show lookupG [(k, [t])] n = _
    rw [lookupG_cons]
    by_cases h : n = k
    · subst h; simp [lookupG_nil]
    · simp [h, Ne.symm h, lookupG_nil]
  | cons p g' ih =>
    obtain ⟨k', s⟩ := p
    show lookupG (if k' = k then (k', if s.contains t then s else s ++ [t]) :: g'
      else (k', s) :: addEdge g' k t) n = _
    by_cases hk : k' = k
    · subst hk
      rw [if_pos rfl]
      by_cases hn : n = k'
      · subst hn; simp [lookupG_cons]
      · simp [lookupG_cons, hn, Ne.symm hn]
    · rw [if_neg hk]
      by_cases hn : n = k'
      · subst hn
        simp [lookupG_cons, ih, hk, Ne.symm hk]
      · by_cases hnk : n = k
        · subst hnk
          simp [lookupG_cons, ih, Ne.symm hn, Ne.symm hk]
        · simp [lookupG_cons, ih, Ne.symm hn, hnk]

theorem mem_lookupG_addEdge {g : List (String × List String)} {k t n x : String} :
    x ∈ lookupG (addEdge g k t) n ↔ x ∈ lookupG g n ∨ (n = k ∧ x = t) := by
  rw [lookupG_addEdge]
  by_cases hn : n = k
  · subst hn
    rw [if_pos rfl]
    by_cases hc : (lookupG g n).contains t
    · rw [if_pos hc]
      have ht : t ∈ lookupG g n := (contains_iff _ _).mp hc
      constructor
      · intro hx; exact Or.inl hx
      · rintro (hx | ⟨-, hx⟩)
        · exact hx
        · exact hx ▸ ht
    · rw [if_neg hc]
      simp [List.mem_append]
  · rw [if_neg hn]
    simp [hn]

theorem keysOf_cons (p : String × List String) (g : List (String × List String)) :
    keysOf (p :: g) = p.1 :: keysOf g := rfl

theorem keysOf_addEdge (g : List (String × List String)) (k t : String) :
    keysOf (addEdge g k t) = if k ∈ keysOf g then keysOf g else keysOf g ++ [k] := by
  induction g with
  | nil => simp [keysOf, addEdge]
  | cons p g' ih =>
    obtain ⟨k', s⟩ := p
    show keysOf (if k' = k then (k', if s.contains t then s else s ++ [t]) :: g'
      else (k', s) :: addEdge g' k t) = _
    by_cases hk : k' = k
    · subst hk
      rw [if_pos rfl, keysOf_cons, keysOf_cons]
      simp
    · rw [if_neg hk, keysOf_cons, keysOf_cons, ih]
      by_cases hmem : k ∈ keysOf g'
      · simp [hmem, Ne.symm hk]
      · have : ¬ (k = k' ∨ k ∈ keysOf g') := by
          rintro (hh | hh)
          · exact hk hh.symm
          · exact hmem hh
        simp [hmem, this, Ne.symm hk]

theorem mem_keysOf_addEdge {g : List (String × List String)} {k t m : String} :
    m ∈ keysOf (addEdge g k t) ↔ m ∈ keysOf g ∨ m = k := by
  rw [keysOf_addEdge]
  by_cases hmem : k ∈ keysOf g
  · rw [if_pos hmem]
    constructor
    · exact Or.inl
    · rintro (h | h)
      · exact h
      · exact h ▸ hmem
  · rw [if_neg hmem]
    simp [List.mem_append]

theorem nodup_keysOf_addEdge {g : List (String × List String)} {k t : String}
    (h : (keysOf g).Nodup) : (keysOf (addEdge g k t)).Nodup := by
  rw [keysOf_addEdge]
  by_cases hmem : k ∈ keysOf g
  · rw [if_pos hmem]; exact h
  · rw [if_neg hmem]
    simp [List.nodup_append, h, hmem]

theorem valnodup_addEdge {g : List (String × List String)} {k t : String}
    (h : ∀ p ∈ g, (p.2 : List String).Nodup) :
    ∀ p ∈ addEdge g k t, (p.2 : List String).Nodup := by
  induction g with
  | nil =>
    intro p hp
    simp only [addEdge, List.mem_singleton] at hp
    subst hp
    simp
  | cons q g' ih =>
    obtain ⟨k', s⟩ := q
    intro p hp
    replace hp : p ∈ (if k' = k then (k', if s.contains t then s else s ++ [t]) :: g'
      else (k', s) :: addEdge g' k t) := hp
    by_cases hk : k' = k
    · rw [if_pos hk] at hp
      rcases List.mem_cons.mp hp with hh | hh
      · subst hh
        by_cases hc : s.contains t
        · have ht : t ∈ s := (contains_iff _ _).mp hc
          simpa [ht, hc] using h (k', s) (List.mem_cons_self _ _)
        · have hns : (s : List String).Nodup := h (k', s) (List.mem_cons_self _ _)
          have hnt : t ∉ s := fun hmem => hc ((contains_iff _ _).mpr hmem)
          simp [hc, List.nodup_append, hns, hnt]
      · exact h p (List.mem_cons_of_mem _ hh)
    · rw [if_neg hk] at hp
      rcases List.mem_cons.mp hp with hh | hh
      · subst hh
        exact h (k', s) (List.mem_cons_self _ _)
      · exact ih (fun q hq => h q (List.mem_cons_of_mem _ hq)) p hh

theorem mem_lookupG_edgeFold (c : String → Bool) (key : String) (ts : List String)
    (g0 : List (String × List String)) (n x : String) :
    x ∈ lookupG (ts.foldl (fun g t => if c t then addEdge g key t else g) g0) n ↔
      x ∈ lookupG g0 n ∨ (n = key ∧ x ∈ ts ∧ c x = true) := by
  induction ts generalizing g0 with
  | nil => simp
  | cons t ts ih =>
    show x ∈ lookupG (ts.foldl _ (if c t then addEdge g0 key t else g0)) n ↔ _
    rw [ih]
    by_cases hct : c t = true
    · rw [if_pos hct, mem_lookupG_addEdge]
      constructor
      · rintro ((hx | ⟨hn, hx⟩) | ⟨hn, hx, hcx⟩)
        · exact Or.inl hx
        · exact Or.inr ⟨hn, by simp [hx], hx ▸ hct⟩
        · exact Or.inr ⟨hn, List.mem_cons_of_mem _ hx, hcx⟩
      · rintro (hx | ⟨hn, hx, hcx⟩)
        · exact Or.inl (Or.inl hx)
        · rcases List.mem_cons.mp hx with hh | hh
          · exact Or.inl (Or.inr ⟨hn, hh⟩)
          · exact Or.inr ⟨hn, hh, hcx⟩
    · rw [if_neg hct]
      constructor
      · rintro (hx | ⟨hn, hx, hcx⟩)
        · exact Or.inl hx
        · exact Or.inr ⟨hn, List.mem_cons_of_mem _ hx, hcx⟩
      · rintro (hx | ⟨hn, hx, hcx⟩)
        · exact Or.inl hx
        · rcases List.mem_cons.mp hx with hh | hh
          · exact absurd (hh ▸ hcx) hct
          · exact Or.inr ⟨hn, hh, hcx⟩

theorem mem_keysOf_edgeFold (c : String → Bool) (key : String) (ts : List String)
    (g0 : List (String × List String)) (m : String) :
    m ∈ keysOf (ts.foldl (fun g t => if c t then addEdge g key t else g) g0) ↔
      m ∈ keysOf g0 ∨ (m = key ∧ ∃ t ∈ ts, c t = true) := by
  induction ts generalizing g0 with
  | nil => simp
  | cons t ts ih =>
    show m ∈ keysOf (ts.foldl _ (if c t then addEdge g0 key t else g0)) ↔ _
    rw [ih]
    by_cases hct : c t = true
    · rw [if_pos hct, mem_keysOf_addEdge]
      constructor
      · rintro ((hm | hm) | ⟨hm, t', ht', hct'⟩)
        · exact Or.inl hm
        · exact Or.inr ⟨hm, t, List.mem_cons_self _ _, hct⟩
        · exact Or.inr ⟨hm, t', List.mem_cons_of_mem _ ht', hct'⟩
      · rintro (hm | ⟨hm, t', ht', hct'⟩)
        · exact Or.inl (Or.inl hm)
        · exact Or.inl (Or.inr hm)
    · rw [if_neg hct]
      constructor
      · rintro (hm | ⟨hm, t', ht', hct'⟩)
        · exact Or.inl hm
        · exact Or.inr ⟨hm, t', List.mem_cons_of_mem _ ht', hct'⟩
      · rintro (hm | ⟨hm, t', ht', hct'⟩)
        · exact Or.inl hm
        · rcases List.mem_cons.mp ht' with hh | hh
          · exact absurd (hh ▸ hct') hct
          · exact Or.inr ⟨hm, t', hh, hct'⟩

theorem nodup_keysOf_edgeFold {c : String → Bool} {key : String} {ts : List String}
    {g0 : List (String × List String)} (h : (keysOf g0).Nodup) :
    (keysOf (ts.foldl (fun g t => if c t then addEdge g key t else g) g0)).Nodup := by
  induction ts generalizing g0 with
  | nil => exact h
  | cons t ts ih =>
    show (keysOf (ts.foldl _ (if c t then addEdge g0 key t else g0))).Nodup
    by_cases hct : c t = true
    · rw [if_pos hct]; exact ih (nodup_keysOf_addEdge h)
    · rw [if_neg hct]; exact ih h

theorem valnodup_edgeFold {c : String → Bool} {key : String} {ts : List String}
    {g0 : List (String × List String)} (h : ∀ p ∈ g0, (p.2 : List String).Nodup) :
    ∀ p ∈ ts.foldl (fun g t => if c t then addEdge g key t else g) g0,
      (p.2 : List String).Nodup := by
  induction ts generalizing g0 with
  | nil => exact h
  | cons t ts ih =>
    show ∀ p ∈ ts.foldl _ (if c t then addEdge g0 key t else g0), (p.2 : List String).Nodup
    by_cases hct : c t = true
    · rw [if_pos hct]; exact ih (valnodup_addEdge h)
    · rw [if_neg hct]; exact ih h

theorem mem_lookupG_fileFold (libs : List String) (c : String → Bool) (fs : List SFile)
    (g0 : List (String × List String)) (n x : String) :
    x ∈ lookupG (fs.foldl (fun g f => (usedOf f libs).foldl
        (fun g t => if c t then addEdge g (extract_component_name f.path) t else g) g) g0) n ↔
      x ∈ lookupG g0 n ∨
        ∃ f ∈ fs, extract_component_name f.path = n ∧ x ∈ usedOf f libs ∧ c x = true := by
  induction fs generalizing g0 with
  | nil => simp
  | cons f fs ih =>
    show x ∈ lookupG (fs.foldl _ ((usedOf f libs).foldl _ g0)) n ↔ _
    rw [ih, mem_lookupG_edgeFold]
    constructor
    · rintro ((hx | ⟨hn, hx, hcx⟩) | ⟨f', hf', hn', hx', hcx'⟩)
      · exact Or.inl hx
      · exact Or.inr ⟨f, List.mem_cons_self _ _, hn.symm, hx, hcx⟩
      · exact Or.inr ⟨f', List.mem_cons_of_mem _ hf', hn', hx', hcx'⟩
    · rintro (hx | ⟨f', hf', hn', hx', hcx'⟩)
      · exact Or.inl (Or.inl hx)
      · rcases List.mem_cons.mp hf' with hh | hh
        · subst hh
          exact Or.inl (Or.inr ⟨hn'.symm, hx', hcx'⟩)
        · exact Or.inr ⟨f', hh, hn', hx', hcx'⟩

theorem mem_keysOf_fileFold (libs : List String) (c : String → Bool) (fs : List SFile)
    (g0 : List (String × List String)) (m : String) :
    m ∈ keysOf (fs.foldl (fun g f => (usedOf f libs).foldl
        (fun g t => if c t then addEdge g (extract_component_name f.path) t else g) g) g0) ↔
      m ∈ keysOf g0 ∨
        ∃ f ∈ fs, extract_component_name f.path = m ∧ ∃ t ∈ usedOf f libs, c t = true := by
  induction fs generalizing g0 with
  | nil => simp
  | cons f fs ih =>
    show m ∈ keysOf (fs.foldl _ ((usedOf f libs).foldl _ g0)) ↔ _
    rw [ih, mem_keysOf_edgeFold]
    constructor
    · rintro ((hm | ⟨hm, t', ht', hct'⟩) | ⟨f', hf', hm', t', ht', hct'⟩)
      · exact Or.inl hm
      · exact Or.inr ⟨f, List.mem_cons_self _ _, hm.symm, t', ht', hct'⟩
      · exact Or.inr ⟨f', List.mem_cons_of_mem _ hf', hm', t', ht', hct'⟩
    · rintro (hm | ⟨f', hf', hm', t', ht', hct'⟩)
      · exact Or.inl (Or.inl hm)
      · rcases List.mem_cons.mp hf' with hh | hh
        · subst hh
          exact Or.inl (Or.inr ⟨hm'.symm, t', ht', hct'⟩)
        · exact Or.inr ⟨f', hh, hm', t', ht', hct'⟩

theorem nodup_keysOf_fileFold {libs : List String} {c : String → Bool} {fs : List SFile}
    {g0 : List (String × List String)} (h : (keysOf g0).Nodup) :
    (keysOf (fs.foldl (fun g f => (usedOf f libs).foldl
        (fun g t => if c t then addEdge g (extract_component_name f.path) t else g) g) g0)).Nodup := by
  induction fs generalizing g0 with
  | nil => exact h
  | cons f fs ih =>
    show (keysOf (fs.foldl _ ((usedOf f libs).foldl _ g0))).Nodup
    exact ih (nodup_keysOf_edgeFold h)

theorem valnodup_fileFold {libs : List String} {c : String → Bool} {fs : List SFile}
    {g0 : List (String × List String)} (h : ∀ p ∈ g0, (p.2 : List String).Nodup) :
    ∀ p ∈ fs.foldl (fun g f => (usedOf f libs).foldl
        (fun g t => if c t then addEdge g (extract_component_name f.path) t else g) g) g0,
      (p.2 : List String).Nodup := by
  induction fs generalizing g0 with
  | nil => exact h
  | cons f fs ih =>
    show ∀ p ∈ fs.foldl _ ((usedOf f libs).foldl _ g0), (p.2 : List String).Nodup
    exact ih (valnodup_edgeFold h)

/-- The project-only filter condition of `build_component_graph`, in
propositional form. -/
theorem buildCond_iff (files : List SFile) (po : Bool) (t : String) :
    (!po || (componentNames files).contains t) = true ↔
      (po = false ∨ t ∈ componentNames files) := by
  cases po <;> simp [contains_iff]

/-- Characterization of the edges of `build_component_graph`: `t` is
recorded as used by component `k` exactly when some discovered file has
component name `k`, its used-set contains `t`, and `t` passes the
project-only filter. -/
theorem mem_lookupG_build {files : List SFile} {libs : List String} {po : Bool}
    {k t : String} :
    t ∈ lookupG (build_component_graph files libs po) k ↔
      ∃ f ∈ files, extract_component_name f.path = k ∧ t ∈ usedOf f libs ∧
        (po = false ∨ t ∈ componentNames files) := by
  rw [build_component_graph, mem_lookupG_fileFold]
  simp only [lookupG_nil, List.not_mem_nil, false_or]
  constructor
  · rintro ⟨f, hf, hn, hx, hc⟩
    exact ⟨f, hf, hn, hx, (buildCond_iff files po t).mp hc⟩
  · rintro ⟨f, hf, hn, hx, hc⟩
    exact ⟨f, hf, hn, hx, (buildCond_iff files po t).mpr hc⟩

/-- Characterization of the keys of `build_component_graph`: a component
name becomes a key exactly when one of its files contributes at least one
edge passing the project-only filter. -/
theorem mem_keysOf_build {files : List SFile} {libs : List String} {po : Bool}
    {m : String} :
    m ∈ keysOf (build_component_graph files libs po) ↔
      ∃ f ∈ files, extract_component_name f.path = m ∧
        ∃ t ∈ usedOf f libs, (po = false ∨ t ∈ componentNames files) := by
  rw [build_component_graph, mem_keysOf_fileFold]
  simp only [keysOf, List.map_nil, List.not_mem_nil, false_or]
  constructor
  · rintro ⟨f, hf, hn, x, hx, hc⟩
    exact ⟨f, hf, hn, x, hx, (buildCond_iff files po x).mp hc⟩
  · rintro ⟨f, hf, hn, x, hx, hc⟩
    exact ⟨f, hf, hn, x, hx, (buildCond_iff files po x).mpr hc⟩

theorem nodup_keysOf_build (files : List SFile) (libs : List String) (po : Bool) :
    (keysOf (build_component_graph files libs po)).Nodup := by
  rw [build_component_graph]
  exact nodup_keysOf_fileFold (by simp [keysOf])

theorem valnodup_build (files : List SFile) (libs : List String) (po : Bool) :
    ∀ p ∈ build_component_graph files libs po, (p.2 : List String).Nodup := by
  rw [build_component_graph]
  exact valnodup_fileFold (by simp)

/-- Lookup in the in-degree association list. -/
def lookupD (d : List (String × Nat)) (k : String) : Option Nat :=
  (d.find? (fun p => p.1 == k)).map Prod.snd

/-- Keys of the in-degree association list. -/
def keysD (d : List (String × Nat)) : List String :=
  d.map Prod.fst

/-- All edge targets of the graph, with multiplicity per key. -/
def targetsOf (g : List (String × List String)) : List String :=
  g.flatMap (fun p => p.2)

/-- Number of stored edges pointing at `m` (each key's value list is
duplicate-free in graphs the program builds, so this is the number of
components using `m`). -/
def refCount (g : List (String × List String)) (m : String) : Nat :=
  (targetsOf g).count m

theorem lookupD_nil (m : String) : lookupD [] m = none := rfl

theorem lookupD_cons (p : String × Nat) (d : List (String × Nat)) (m : String) :
    lookupD (p :: d) m = if p.1 = m then some p.2 else lookupD d m := by
  by_cases h : p.1 = m
  · unfold lookupD
    rw [List.find?_cons_of_pos _ (by simpa using h), if_pos h]
    rfl
  · unfold lookupD
    rw [List.find?_cons_of_neg _ (by simpa using h), if_neg h]

theorem lookupD_ensureKey (d : List (String × Nat)) (k m : String) :
    lookupD (ensureKey d k) m =
      if m = k then some ((lookupD d k).getD 0) else lookupD d m := by
  induction d with
  | nil =>
    show lookupD [(k, 0)] m = _
    rw [lookupD_cons]
    by_cases h : m = k
    · simp [h, lookupD_nil]
    · simp [h, Ne.symm h, lookupD_nil]
  | cons p d' ih =>
    obtain ⟨k', n⟩ := p
    show lookupD (if k' = k then (k', n) :: d' else (k', n) :: ensureKey d' k) m = _
    by_cases hk : k' = k
    · subst hk
      rw [if_pos rfl, lookupD_cons]
      by_cases hm : m = k'
      · subst hm; simp [lookupD_cons]
      · simp [lookupD_cons, hm, Ne.symm hm]
    · rw [if_neg hk]
      simp only [lookupD_cons, ih]
      by_cases hm : k' = m
      · subst hm
        simp [Ne.symm hk, hk]
      · by_cases hmk : m = k
        · subst hmk
          simp [hm, hk]
        · simp [hm, hmk]

theorem lookupD_bump (d : List (String × Nat)) (k m : String) :
    lookupD (bump d k) m =
      if m = k then some ((lookupD d k).getD 0 + 1) else lookupD d m := by
  induction d with
  | nil =>
    show lookupD [(k, 1)] m = _
    rw [lookupD_cons]
    by_cases h : m = k
    · simp [h, lookupD_nil]
    · simp [h, Ne.symm h, lookupD_nil]
  | cons p d' ih =>
    obtain ⟨k', n⟩ := p
    show lookupD (if k' = k then (k', n + 1) :: d' else (k', n) :: bump d' k) m = _
    by_cases hk : k' = k
    · subst hk
      rw [if_pos rfl, lookupD_cons]
      by_cases hm : m = k'
      · subst hm; simp [lookupD_cons]
      · simp [lookupD_cons, hm, Ne.symm hm]
    · rw [if_neg hk]
      simp only [lookupD_cons, ih]
      by_cases hm : k' = m
      · subst hm
        simp [Ne.symm hk, hk]
      · by_cases hmk : m = k
        · subst hmk
          simp [hm, hk]
        · simp [hm, hmk]

theorem keysD_ensureKey (d : List (String × Nat)) (k : String) :
    keysD (ensureKey d k) = if k ∈ keysD d then keysD d else keysD d ++ [k] := by
  induction d with
  | nil => simp [keysD, ensureKey]
  | cons p d' ih =>
    obtain ⟨k', n⟩ := p
    show keysD (if k' = k then (k', n) :: d' else (k', n) :: ensureKey d' k) = _
    by_cases hk : k' = k
    · subst hk
      rw [if_pos rfl]
      simp [keysD]
    · rw [if_neg hk]
      show k' :: keysD (ensureKey d' k) = _
      rw [ih]
      simp only [keysD] at *
      by_cases hmem : k ∈ List.map Prod.fst d'
      · simp [hmem, Ne.symm hk]
      · simp [hmem, Ne.symm hk]

theorem keysD_bump (d : List (String × Nat)) (k : String) :
    keysD (bump d k) = if k ∈ keysD d then keysD d else keysD d ++ [k] := by
  induction d with
  | nil => simp [keysD, bump]
  | cons p d' ih =>
    obtain ⟨k', n⟩ := p
    show keysD (if k' = k then (k', n + 1) :: d' else (k', n) :: bump d' k) = _
    by_cases hk : k' = k
    · subst hk
      rw [if_pos rfl]
      simp [keysD]
    · rw [if_neg hk]
      show k' :: keysD (bump d' k) = _
      rw [ih]
      simp only [keysD] at *
      by_cases hmem : k ∈ List.map Prod.fst d'
      · simp [hmem, Ne.symm hk]
      · simp [hmem, Ne.symm hk]

theorem nodup_keysD_ensureKey {d : List (String × Nat)} {k : String}
    (h : (keysD d).Nodup) : (keysD (ensureKey d k)).Nodup := by
  rw [keysD_ensureKey]
  by_cases hmem : k ∈ keysD d
  · rw [if_pos hmem]; exact h
  · rw [if_neg hmem]; simp [List.nodup_append, h, hmem]

theorem nodup_keysD_bump {d : List (String × Nat)} {k : String}
    (h : (keysD d).Nodup) : (keysD (bump d k)).Nodup := by
  rw [keysD_bump]
  by_cases hmem : k ∈ keysD d
  · rw [if_pos hmem]; exact h
  · rw [if_neg hmem]; simp [List.nodup_append, h, hmem]

theorem lookupD_ensureFold (ks : List String) (d : List (String × Nat)) (m : String) :
    lookupD (ks.foldl (fun d k => ensureKey d k) d) m =
      if m ∈ ks then some ((lookupD d m).getD 0) else lookupD d m := by
  induction ks generalizing d with
  | nil => simp
  | cons k ks ih =>
    show lookupD (ks.foldl _ (ensureKey d k)) m = _
    rw [ih, lookupD_ensureKey]
    by_cases hmk : m = k
    · subst hmk
      by_cases hmem : m ∈ ks <;> simp [hmem]
    · by_cases hmem : m ∈ ks
      · simp [hmk, hmem]
      · have : ¬ (m = k ∨ m ∈ ks) := by
          rintro (hh | hh)
          · exact hmk hh
          · exact hmem hh
        simp [hmk, hmem, this]

theorem lookupD_bumpFold (ts : List String) (d : List (String × Nat)) (m : String) :
    lookupD (ts.foldl (fun d c => bump d c) d) m =
      if m ∈ ts then some ((lookupD d m).getD 0 + ts.count m) else lookupD d m := by
  induction ts generalizing d with
  | nil => simp
  | cons t ts ih =>
    show lookupD (ts.foldl _ (bump d t)) m = _
    rw [ih, lookupD_bump]
    by_cases hmt : m = t
    · subst hmt
      by_cases hmem : m ∈ ts
      · simp [hmem, List.count_cons_self]
        omega
      · have hz : ts.count m = 0 := List.count_eq_zero_of_not_mem hmem
        simp [hmem, List.count_cons_self, hz]
    · by_cases hmem : m ∈ ts
      · simp [hmt, hmem, List.count_cons_of_ne hmt]
      · have : ¬ (m = t ∨ m ∈ ts) := by
          rintro (hh | hh)
          · exact hmt hh
          · exact hmem hh
        simp [hmt, hmem, this]

theorem mem_keysD_ensureKey {d : List (String × Nat)} {k m : String} :
    m ∈ keysD (ensureKey d k) ↔ m ∈ keysD d ∨ m = k := by
  rw [keysD_ensureKey]
  by_cases hmem : k ∈ keysD d
  · rw [if_pos hmem]
    constructor
    · exact Or.inl
    · rintro (h | h)
      · exact h
      · exact h ▸ hmem
  · rw [if_neg hmem]
    simp [List.mem_append]

theorem mem_keysD_bump {d : List (String × Nat)} {k m : String} :
    m ∈ keysD (bump d k) ↔ m ∈ keysD d ∨ m = k := by
  rw [keysD_bump]
  by_cases hmem : k ∈ keysD d
  · rw [if_pos hmem]
    constructor
    · exact Or.inl
    · rintro (h | h)
      · exact h
      · exact h ▸ hmem
  · rw [if_neg hmem]
    simp [List.mem_append]

theorem mem_keysD_ensureFold (ks : List String) (d : List (String × Nat)) (m : String) :
    m ∈ keysD (ks.foldl (fun d k => ensureKey d k) d) ↔ m ∈ keysD d ∨ m ∈ ks := by
  induction ks generalizing d with
  | nil => simp
  | cons k ks ih =>
    show m ∈ keysD (ks.foldl _ (ensureKey d k)) ↔ _
    rw [ih, mem_keysD_ensureKey, List.mem_cons]
    tauto

theorem mem_keysD_bumpFold (ts : List String) (d : List (String × Nat)) (m : String) :
    m ∈ keysD (ts.foldl (fun d c => bump d c) d) ↔ m ∈ keysD d ∨ m ∈ ts := by
  induction ts generalizing d with
  | nil => simp
  | cons t ts ih =>
    show m ∈ keysD (ts.foldl _ (bump d t)) ↔ _
    rw [ih, mem_keysD_bump, List.mem_cons]
    tauto

theorem nodup_keysD_ensureFold {ks : List String} {d : List (String × Nat)}
    (h : (keysD d).Nodup) : (keysD (ks.foldl (fun d k => ensureKey d k) d)).Nodup := by
  induction ks generalizing d with
  | nil => exact h
  | cons k ks ih =>
    show (keysD (ks.foldl _ (ensureKey d k))).Nodup
    exact ih (nodup_keysD_ensureKey h)

theorem nodup_keysD_bumpFold {ts : List String} {d : List (String × Nat)}
    (h : (keysD d).Nodup) : (keysD (ts.foldl (fun d c => bump d c) d)).Nodup := by
  induction ts generalizing d with
  | nil => exact h
  | cons t ts ih =>
    show (keysD (ts.foldl _ (bump d t))).Nodup
    exact ih (nodup_keysD_bump h)

theorem inDegreeOf_eq (g : List (String × List String)) :
    inDegreeOf g = (targetsOf g).foldl (fun d c => bump d c)
      ((keysOf g).foldl (fun d k => ensureKey d k) []) := by
  have h2 : ∀ (gs : List (String × List String)) (d : List (String × Nat)),
      (gs.flatMap (fun p => p.2)).foldl (fun d c => bump d c) d =
        gs.foldl (fun d p => p.2.foldl (fun d c => bump d c) d) d := by
    intro gs
    induction gs with
    | nil => intro d; rfl
    | cons p gs ih =>
      intro d
      rw [List.flatMap_cons, List.foldl_append, ih]
      rfl
  have h0 : inDegreeOf g = g.foldl (fun d p => p.2.foldl (fun d c => bump d c) d)
      (g.foldl (fun d p => ensureKey d p.1) []) := rfl
  rw [h0,
    show (keysOf g).foldl (fun d k => ensureKey d k) ([] : List (String × Nat)) =
      g.foldl (fun d p => ensureKey d p.1) [] from by rw [keysOf, List.foldl_map],
    targetsOf, h2]

/-- The in-degree map computed by `find_roots`: an entry for every graph
key and every edge target, whose value is the number of stored edges
pointing at the node. -/
theorem lookupD_inDegreeOf (g : List (String × List String)) (m : String) :
    lookupD (inDegreeOf g) m =
      if m ∈ targetsOf g then some (refCount g m)
      else if m ∈ keysOf g then some 0 else none := by
  rw [inDegreeOf_eq, lookupD_bumpFold, lookupD_ensureFold]
  simp only [lookupD_nil]
  by_cases ht : m ∈ targetsOf g
  · by_cases hk : m ∈ keysOf g <;> simp [ht, hk, refCount]
  · by_cases hk : m ∈ keysOf g <;> simp [ht, hk]

theorem mem_keysD_inDegreeOf (g : List (String × List String)) (m : String) :
    m ∈ keysD (inDegreeOf g) ↔ m ∈ keysOf g ∨ m ∈ targetsOf g := by
  rw [inDegreeOf_eq, mem_keysD_bumpFold, mem_keysD_ensureFold]
  simp [keysD]

theorem nodup_keysD_inDegreeOf (g : List (String × List String)) :
    (keysD (inDegreeOf g)).Nodup := by
  rw [inDegreeOf_eq]
  exact nodup_keysD_bumpFold (nodup_keysD_ensureFold (by simp [keysD]))

theorem mem_iff_lookupD {d : List (String × Nat)} (hn : (keysD d).Nodup)
    {m : String} {v : Nat} : (m, v) ∈ d ↔ lookupD d m = some v := by
  induction d with
  | nil => simp [lookupD_nil]
  | cons p d' ih =>
    obtain ⟨k, n⟩ := p
    simp only [keysD, List.map_cons, List.nodup_cons] at hn
    rw [List.mem_cons, lookupD_cons]
    by_cases hm : k = m
    · subst hm
      rw [if_pos rfl]
      constructor
      · rintro (hh | hh)
        · simp only [Prod.mk.injEq] at hh
          simp [hh.2]
        · exact absurd (List.mem_map.mpr ⟨(k, v), hh, rfl⟩) hn.1
      · intro hh
        simp only [Option.some.injEq] at hh
        exact Or.inl (by simp [hh])
    · rw [if_neg (by simpa using hm)]
      rw [← ih hn.2]
      constructor
      · rintro (hh | hh)
        · exact absurd (congrArg Prod.fst hh).symm (by simpa using hm)
        · exact hh
      · exact Or.inr

/-- Membership in `find_roots`: exactly the tracked nodes (graph keys and
edge targets) with zero stored references. -/
theorem mem_find_roots_iff {g : List (String × List String)} {m : String} :
    m ∈ find_roots g ↔ (m ∈ keysOf g ∨ m ∈ targetsOf g) ∧ refCount g m = 0 := by
  unfold find_roots
  rw [List.mem_map]
  constructor
  · rintro ⟨p, hp, hm⟩
    obtain ⟨m', v⟩ := p
    simp only at hm
    rw [hm] at hp
    rw [List.mem_filter] at hp
    have hv : v = 0 := by simpa using hp.2
    subst hv
    have hl := (mem_iff_lookupD (nodup_keysD_inDegreeOf g)).mp hp.1
    rw [lookupD_inDegreeOf] at hl
    by_cases ht : m ∈ targetsOf g
    · rw [if_pos ht] at hl
      exact ⟨Or.inr ht, (by simpa using hl.symm : (0 : Nat) = refCount g m).symm⟩
    · rw [if_neg ht] at hl
      by_cases hk : m ∈ keysOf g
      · exact ⟨Or.inl hk, List.count_eq_zero_of_not_mem ht⟩
      · rw [if_neg hk] at hl; cases hl
  · rintro ⟨htr, hz⟩
    have hl : lookupD (inDegreeOf g) m = some 0 := by
      rw [lookupD_inDegreeOf]
      by_cases ht : m ∈ targetsOf g
      · rw [if_pos ht, hz]
      · rcases htr with hk | hk
        · simp [ht, hk]
        · exact absurd hk ht
    have hmem := (mem_iff_lookupD (nodup_keysD_inDegreeOf g)).mpr hl
    exact ⟨(m, 0), List.mem_filter.mpr ⟨hmem, by simp⟩, rfl⟩

theorem nodup_find_roots (g : List (String × List String)) :
    (find_roots g).Nodup := by
  unfold find_roots
  exact List.Nodup.sublist ((List.filter_sublist _).map Prod.fst)
    (nodup_keysD_inDegreeOf g)

theorem takeWhile_append_stop {p : Char → Bool} {u : List Char} {c : Char}
    {v : List Char} (hu : ∀ x ∈ u, p x = true) (hc : p c = false) :
    (u ++ c :: v).takeWhile p = u := by
  induction u with
  | nil => simp [List.takeWhile_cons, hc]
  | cons a u ih =>
    simp only [List.cons_append, List.takeWhile_cons, hu a (List.mem_cons_self _ _)]
    rw [ih (fun x hx => hu x (List.mem_cons_of_mem _ hx))]
    simp

theorem dropWhile_append_stop2 {p : Char → Bool} {u : List Char} {c : Char}
    {v : List Char} (hu : ∀ x ∈ u, p x = true) (hc : p c = false) :
    (u ++ c :: v).dropWhile p = c :: v := by
  induction u with
  | nil => simp [List.dropWhile_cons, hc]
  | cons a u ih =>
    simp only [List.cons_append, List.dropWhile_cons, hu a (List.mem_cons_self _ _)]
    simpa using ih (fun x hx => hu x (List.mem_cons_of_mem _ hx))

theorem dropWhile_append_stop {p : Char → Bool} {u : List Char} {c : Char}
    {v : List Char} (hc : p c = false) :
    (u ++ c :: v).dropWhile p = u.dropWhile p ++ c :: v := by
  induction u with
  | nil => simp [List.dropWhile_cons, hc]
  | cons a u ih =>
    simp only [List.cons_append, List.dropWhile_cons]
    by_cases ha : p a
    · simpa [ha] using ih
    · simp [ha]

/-- In any content that contains the characters `<B/` with `B` a
capitalized word, the tag scan finds `B`: no earlier match can consume the
`<`, because a captured word run never contains `<`. -/
theorem scanTags_find (pre : List Char) (b : Char) (bs post : List Char)
    (hb : isUpperA b = true) (hbs : ∀ c ∈ bs, isWordChar c = true) :
    (b :: bs) ∈ scanTags (pre ++ '<' :: b :: (bs ++ '/' :: post)) := by
  have hword_lt : isWordChar '<' = false := by decide
  have hword_sl : isWordChar '/' = false := by decide
  have hupper_lt : isUpperA '<' = false := by decide
  have base : ∀ post', (b :: bs) ∈ scanTags ('<' :: b :: (bs ++ '/' :: post')) := by
    intro post'
    rw [scanTags_eq]
    rw [if_pos rfl, if_pos hb, takeWhile_append_stop hbs hword_sl]
    exact List.mem_cons_self _ _
  suffices h : ∀ (n : Nat) (pre : List Char), pre.length ≤ n →
      (b :: bs) ∈ scanTags (pre ++ '<' :: b :: (bs ++ '/' :: post)) by
    exact h pre.length pre (le_refl _)
  intro n
  induction n with
  | zero =>
    intro pre hpre
    have : pre = [] := List.length_eq_zero.mp (Nat.le_zero.mp hpre)
    subst this
    exact base post
  | succ n ih =>
    intro pre hpre
    cases pre with
    | nil => exact base post
    | cons a pre' =>
      cases pre' with
      | nil =>
        show (b :: bs) ∈ scanTags (a :: '<' :: b :: (bs ++ '/' :: post))
        rw [scanTags_eq]
        by_cases ha : a = '<'
        · rw [if_pos ha, hupper_lt]
          simp only [Bool.false_eq_true, if_false]
          exact base post
        · rw [if_neg ha]
          exact base post
      | cons a2 pre'' =>
        show (b :: bs) ∈ scanTags (a :: a2 :: (pre'' ++ '<' :: b :: (bs ++ '/' :: post)))
        rw [scanTags_eq]
        simp only [List.length_cons] at hpre
        by_cases ha : a = '<'
        · rw [if_pos ha]
          by_cases ha2 : isUpperA a2 = true
          · rw [if_pos ha2]
            apply List.mem_cons_of_mem
            rw [dropWhile_append_stop hword_lt]
            have hlen : (pre''.dropWhile isWordChar).length ≤ n :=
              le_trans (List.dropWhile_suffix isWordChar).length_le (by omega)
            exact ih (pre''.dropWhile isWordChar) hlen
          · rw [if_neg ha2]
            exact ih (a2 :: pre'') (by simpa using by omega)
        · rw [if_neg ha]
          exact ih (a2 :: pre'') (by simpa using by omega)

/-- C1: for every discovered project file whose content contains a
capitalized opening tag `<B/>` and which has no imports from libraries in
the ignore list, `build_component_graph` maps the file component name to a
set containing `B`, provided project-only mode is off or `B` is itself a
discovered component name. -/
theorem C1_tag_gives_edge (files : List SFile) (libs : List String) (po : Bool)
    (f : SFile) (content : String) (pre : List Char) (b : Char) (bs post : List Char)
    (hf : f ∈ files) (hc : f.content = .ok content)
    (hdecomp : content.data = pre ++ '<' :: b :: (bs ++ '/' :: post))
    (hb : isUpperA b = true) (hbs : ∀ c ∈ bs, isWordChar c = true)
    (hnoign : ignoredOf content libs = [])
    (hpo : po = false ∨ (⟨b :: bs⟩ : String) ∈ componentNames files) :
    (⟨b :: bs⟩ : String) ∈ lookupG (build_component_graph files libs po)
      (extract_component_name f.path) := by
  apply mem_lookupG_build.mpr
  refine ⟨f, hf, rfl, ?_, hpo⟩
  have htag : (b :: bs) ∈ scanTags content.data := by
    rw [hdecomp]
    exact scanTags_find pre b bs post hb hbs
  have hmem : (⟨b :: bs⟩ : String) ∈ tagNames content :=
    List.mem_map.mpr ⟨b :: bs, htag, rfl⟩
  unfold usedOf
  simp only [extract_used_components, extract_imported_ignored_components, hc, hnoign]
  simp [List.mem_filter, List.mem_dedup, hmem]

theorem C1_witness :
    ("B" : String) ∈ lookupG
      (build_component_graph [⟨"A.jsx", Except.ok "<B/>"⟩] [] false)
      (extract_component_name "A.jsx") := by
  have h := C1_tag_gives_edge [⟨"A.jsx", Except.ok "<B/>"⟩] [] false
    ⟨"A.jsx", Except.ok "<B/>"⟩ "<B/>" [] 'B' [] ['>']
    (List.mem_cons_self _ _) rfl (by decide) (by decide) (by simp) (by decide)
    (Or.inl rfl)
  exact h

/-- C2: `find_roots` computes an in-degree map giving every graph key an
entry (0 before increments) and every edge target an entry equal to the
number of stored references to it (targets that are not keys silently
acquire an entry), and returns exactly the tracked nodes of in-degree 0;
for the graph `A ↦ {B}, B ↦ {}` the roots are exactly `[A]`. -/
theorem C2_find_roots_characterization (g : List (String × List String)) :
    (∀ m, lookupD (inDegreeOf g) m =
      if m ∈ targetsOf g then some (refCount g m)
      else if m ∈ keysOf g then some 0 else none) ∧
    (∀ m, m ∈ keysD (inDegreeOf g) ↔ m ∈ keysOf g ∨ m ∈ targetsOf g) ∧
    (∀ m, m ∈ find_roots g ↔
      (m ∈ keysOf g ∨ m ∈ targetsOf g) ∧ refCount g m = 0) ∧
    find_roots [("A", ["B"]), ("B", [])] = ["A"] :=
  ⟨fun m => lookupD_inDegreeOf g m,
   fun m => mem_keysD_inDegreeOf g m,
   fun _ => mem_find_roots_iff,
   by decide⟩

/-- C3: rendering terminates on every graph, cyclic ones included: the
recursion satisfies its defining equation with a per-path visited set
(`generate_markdown_tree_eq`), a node already on the current path emits
its bullet but is not expanded again, the cyclic graph `A ↔ B` renders a
finite nest, and the same node is still re-expanded under a sibling
branch. -/
theorem C3_cycles_terminate :
    (∀ (g : List (String × List String)) (node : String) (indent : Nat)
        (visited : Finset String), node ∈ visited →
      generate_markdown_tree g node indent visited =
        spacesN indent ++ "- " ++ node ++ "\n") ∧
    generate_markdown_tree [("A", ["B"]), ("B", ["A"])] "A" 0 ∅ =
      "- A\n  - B\n    - A\n" ∧
    generate_markdown_tree [("R", ["A", "B"]), ("A", ["Z"]), ("B", ["A"])] "R" 0 ∅ =
      "- R\n  - A\n    - Z\n  - B\n    - A\n      - Z\n" := by
  refine ⟨fun g node indent visited hv => ?_, by decide, by decide⟩
  rw [generate_markdown_tree_eq, if_pos hv]

theorem C3_witness :
    generate_markdown_tree [] "A" 0 {"A"} = spacesN 0 ++ "- " ++ "A" ++ "\n" :=
  C3_cycles_terminate.1 [] "A" 0 {"A"} (by decide)

theorem mem_graph_lookupG {g : List (String × List String)}
    (hn : (keysOf g).Nodup) {k : String} {s : List String} :
    (k, s) ∈ g ↔ (k ∈ keysOf g ∧ lookupG g k = s) := by
  induction g with
  | nil => simp [keysOf]
  | cons p g' ih =>
    obtain ⟨k', s'⟩ := p
    simp only [keysOf, List.map_cons, List.nodup_cons] at hn
    have ih' := ih hn.2
    constructor
    · intro hmem
      rcases List.mem_cons.mp hmem with hh | hh
      · have hk : k' = k := (congrArg Prod.fst hh).symm
        have hs : s' = s := (congrArg Prod.snd hh).symm
        refine ⟨List.mem_cons.mpr (Or.inl hk.symm), ?_⟩
        rw [lookupG_cons, if_pos hk]
        exact hs
      · have h2 := ih'.mp hh
        refine ⟨List.mem_cons.mpr (Or.inr h2.1), ?_⟩
        rw [lookupG_cons]
        by_cases hkk : k' = k
        · subst hkk
          exact absurd h2.1 hn.1
        · rw [if_neg hkk]
          exact h2.2
    · rintro ⟨hk1, hk2⟩
      by_cases hkk : k' = k
      · have hs : s' = s := by
          rw [lookupG_cons, if_pos hkk] at hk2
          exact hk2
        exact List.mem_cons.mpr (Or.inl (by rw [← hs, ← hkk]))
      · rcases List.mem_cons.mp hk1 with hh | hh
        · exact absurd hh.symm hkk
        · rw [lookupG_cons, if_neg hkk] at hk2
          exact List.mem_cons.mpr (Or.inr (ih'.mpr ⟨hh, hk2⟩))

/-- C6: with project-only mode enabled, every edge target stored in the
graph is a discovered project component name. -/
theorem C6_project_only_invariant (files : List SFile) (libs : List String) :
    ∀ p ∈ build_component_graph files libs true, ∀ t ∈ p.2,
      t ∈ componentNames files := by
  intro p hp t ht
  obtain ⟨k, s⟩ := p
  have hl : t ∈ lookupG (build_component_graph files libs true) k := by
    have hn := nodup_keysOf_build files libs true
    rw [(mem_graph_lookupG hn).mp hp |>.2]
    exact ht
  rcases mem_lookupG_build.mp hl with ⟨f, _, _, _, hc⟩
  rcases hc with hfalse | hmem
  · cases hfalse
  · exact hmem

theorem C6_witness :
    ("B" : String) ∈ componentNames [⟨"A.jsx", Except.ok "<B/>"⟩, ⟨"B.jsx", Except.ok ""⟩] :=
  C6_project_only_invariant [⟨"A.jsx", Except.ok "<B/>"⟩, ⟨"B.jsx", Except.ok ""⟩] []
    ("A", ["B"]) (by decide) "B" (by decide)

theorem lookupG_subset_targets {g : List (String × List String)} {n x : String}
    (h : x ∈ lookupG g n) : x ∈ targetsOf g := by
  unfold lookupG at h
  cases hf : g.find? (fun p => p.1 == n) with
  | none => rw [hf] at h; cases h
  | some p =>
    rw [hf] at h
    have hmem := List.mem_of_find?_eq_some hf
    exact List.mem_flatMap.mpr ⟨p, hmem, h⟩

theorem mem_targets_exists {g : List (String × List String)} {x : String}
    (h : x ∈ targetsOf g) : ∃ p ∈ g, x ∈ p.2 :=
  List.mem_flatMap.mp h

/-- C7 counterexample: for a file whose read fails, the source catches the
exception and prints the message with `print(...)`, which writes to
standard output — nothing is ever written to standard error, contradicting
the claim that the message is reported to standard error. -/
theorem C7_counterexample :
    (extract_used_components ⟨"bad.jsx", Except.error "Permission denied"⟩ []).stderr
        = [] ∧
    (extract_used_components ⟨"bad.jsx", Except.error "Permission denied"⟩ []).stdout
        = ["Error reading bad.jsx: Permission denied"] ∧
    (extract_used_components ⟨"bad.jsx", Except.error "Permission denied"⟩ []).val
        = [] := by
  decide

/-- C7 as amended: a failed read is caught, a message with the file path
and the error is reported to standard output (not standard error), the
file contributes an empty usage set and an empty ignored-import set, and
the run continues: the graph built over the remaining files carries
exactly their edges. -/
theorem C7_read_error_handling (path e : String) (libs : List String) :
    extract_used_components ⟨path, Except.error e⟩ libs =
      ⟨[], ["Error reading " ++ path ++ ": " ++ e], []⟩ ∧
    extract_imported_ignored_components ⟨path, Except.error e⟩ libs =
      ⟨[], ["Error reading imports in " ++ path ++ ": " ++ e], []⟩ ∧
    ∀ (fs : List SFile) (po : Bool) (k t : String),
      t ∈ lookupG (build_component_graph (⟨path, Except.error e⟩ :: fs) libs po) k ↔
        ∃ f ∈ fs, extract_component_name f.path = k ∧ t ∈ usedOf f libs ∧
          (po = false ∨ t ∈ componentNames (⟨path, Except.error e⟩ :: fs)) := by
  refine ⟨rfl, rfl, fun fs po k t => ?_⟩
  rw [mem_lookupG_build]
  constructor
  · rintro ⟨f, hf, hn, hu, hc⟩
    rcases List.mem_cons.mp hf with hh | hh
    · subst hh
      simp [usedOf, extract_used_components] at hu
    · exact ⟨f, hh, hn, hu, hc⟩
  · rintro ⟨f, hf, hn, hu, hc⟩
    exact ⟨f, List.mem_cons_of_mem _ hf, hn, hu, hc⟩

theorem mdTraceGas_snd_mem {gas : Nat} {g : List (String × List String)}
    {n : String} {i : Nat} {v : Finset String} {p : Nat × String}
    (hp : p ∈ mdTraceGas gas g n i v) : p.2 = n ∨ p.2 ∈ targetsOf g := by
  induction gas generalizing n i v with
  | zero => cases hp
  | succ a ih =>
    simp only [mdTraceGas] at hp
    rcases List.mem_cons.mp hp with hh | hh
    · exact Or.inl (by rw [hh])
    · by_cases hv : n ∈ v
      · rw [if_pos hv] at hh
        cases hh
      · rw [if_neg hv] at hh
        rcases List.mem_flatMap.mp hh with ⟨c, hc, hpc⟩
        rcases ih hpc with h1 | h1
        · exact Or.inr (h1 ▸ lookupG_subset_targets (mem_sortStr.mp hc))
        · exact Or.inr h1

/-- C10: a discovered component file whose extracted used-set is empty
(and whose name is not also defined with usages by another file) never
becomes a graph key; if additionally no other component references the
name, it has no in-degree entry, is never a root, and no rendered bullet
of any root's tree carries it. -/
theorem C10_empty_used_not_key (files : List SFile) (libs : List String)
    (po : Bool) (A : String)
    (h1 : ∀ f ∈ files, extract_component_name f.path = A → usedOf f libs = [])
    (h2 : ∀ f ∈ files, A ∉ usedOf f libs) :
    A ∉ keysOf (build_component_graph files libs po) ∧
    A ∉ keysD (inDegreeOf (build_component_graph files libs po)) ∧
    A ∉ find_roots (build_component_graph files libs po) ∧
    ∀ r ∈ find_roots (build_component_graph files libs po),
      A ∉ (mdTrace (build_component_graph files libs po) r 0 ∅).map Prod.snd := by
  set g := build_component_graph files libs po with hg
  have hkey : A ∉ keysOf g := by
    intro hmem
    rcases mem_keysOf_build.mp hmem with ⟨f, hf, hn, t, ht, -⟩
    rw [h1 f hf hn] at ht
    exact List.not_mem_nil t ht
  have htar : A ∉ targetsOf g := by
    intro hmem
    rcases mem_targets_exists hmem with ⟨p, hp, hA⟩
    obtain ⟨k, s⟩ := p
    have hl : A ∈ lookupG g k := by
      rw [(mem_graph_lookupG (hg ▸ nodup_keysOf_build files libs po)).mp hp |>.2]
      exact hA
    rcases mem_lookupG_build.mp hl with ⟨f, hf, -, hu, -⟩
    exact h2 f hf hu
  have hdeg : A ∉ keysD (inDegreeOf g) := by
    rw [mem_keysD_inDegreeOf]
    rintro (hh | hh)
    · exact hkey hh
    · exact htar hh
  have hroot : A ∉ find_roots g := by
    rw [mem_find_roots_iff]
    rintro ⟨hh | hh, -⟩
    · exact hkey hh
    · exact htar hh
  refine ⟨hkey, hdeg, hroot, fun r hr hA => ?_⟩
  rcases List.mem_map.mp hA with ⟨p, hm, hm2⟩
  rcases mdTraceGas_snd_mem hm with hh | hh
  · have hAr : A = r := hm2 ▸ hh
    exact hroot (by rw [hAr]; exact hr)
  · exact htar (hm2 ▸ hh)

theorem charListLe_total (a b : List Char) :
    charListLe a b = true ∨ charListLe b a = true := by
  induction a generalizing b with
  | nil => exact Or.inl rfl
  | cons x xs ih =>
    cases b with
    | nil => exact Or.inr rfl
    | cons y ys =>
      rcases lt_trichotomy x y with h | h | h
      · exact Or.inl (by simp [charListLe, h])
      · subst h
        rcases ih ys with hh | hh
        · exact Or.inl (by simp [charListLe, hh])
        · exact Or.inr (by simp [charListLe, hh])
      · exact Or.inr (by simp [charListLe, h])

theorem charListLe_trans {a b c : List Char}
    (h1 : charListLe a b = true) (h2 : charListLe b c = true) :
    charListLe a c = true := by
  induction a generalizing b c with
  | nil => rfl
  | cons x xs ih =>
    cases b with
    | nil => simp [charListLe] at h1
    | cons y ys =>
      cases c with
      | nil => simp [charListLe] at h2
      | cons z zs =>
        simp only [charListLe] at h1 h2 ⊢
        rcases lt_trichotomy x y with hxy | hxy | hxy
        · rcases lt_trichotomy y z with hyz | hyz | hyz
          · simp [lt_trans hxy hyz]
          · simp [hyz ▸ hxy]
          · simp [lt_asymm hyz, hyz.ne'] at h2
        · simp only [hxy, lt_irrefl, if_false, if_pos rfl] at h1
          rcases lt_trichotomy y z with hyz | hyz | hyz
          · simp [hxy ▸ hyz]
          · simp only [hyz, lt_irrefl, if_false, if_pos rfl] at h2
            rw [show x = z from hxy.trans hyz]
            simp only [lt_irrefl, if_false, if_pos rfl]
            exact ih h1 h2
          · simp [lt_asymm hyz, hyz.ne'] at h2
        · simp [lt_asymm hxy, hxy.ne'] at h1

theorem charListLe_antisymm {a b : List Char}
    (h1 : charListLe a b = true) (h2 : charListLe b a = true) : a = b := by
  induction a generalizing b with
  | nil =>
    cases b with
    | nil => rfl
    | cons y ys => simp [charListLe] at h2
  | cons x xs ih =>
    cases b with
    | nil => simp [charListLe] at h1
    | cons y ys =>
      simp only [charListLe] at h1 h2
      rcases lt_trichotomy x y with hxy | hxy | hxy
      · simp [lt_asymm hxy, hxy.ne'] at h2
      · simp only [hxy, lt_irrefl, if_false, if_pos rfl] at h1 h2
        rw [hxy, ih h1 h2]
      · simp [lt_asymm hxy, hxy.ne'] at h1

theorem strLeb_total (a b : String) : strLeb a b = true ∨ strLeb b a = true :=
  charListLe_total a.data b.data

theorem strLeb_trans {a b c : String} (h1 : strLeb a b = true)
    (h2 : strLeb b c = true) : strLeb a c = true :=
  charListLe_trans h1 h2

theorem strLeb_antisymm {a b : String} (h1 : strLeb a b = true)
    (h2 : strLeb b a = true) : a = b :=
  String.ext (charListLe_antisymm h1 h2)

theorem pairwise_insertSorted (x : String) (l : List String)
    (h : List.Pairwise (fun a b => strLeb a b = true) l) :
    List.Pairwise (fun a b => strLeb a b = true) (insertSorted x l) := by
  induction l with
  | nil => simp [insertSorted]
  | cons y ys ih =>
    show List.Pairwise _ (if strLeb x y then x :: y :: ys else y :: insertSorted x ys)
    rcases List.pairwise_cons.mp h with ⟨hy, hys⟩
    by_cases hxy : strLeb x y = true
    · rw [if_pos hxy]
      refine List.pairwise_cons.mpr ⟨?_, h⟩
      intro z hz
      rcases List.mem_cons.mp hz with hh | hh
      · exact hh ▸ hxy
      · exact strLeb_trans hxy (hy z hh)
    · rw [if_neg hxy]
      refine List.pairwise_cons.mpr ⟨?_, ih hys⟩
      intro z hz
      have hz2 := (insertSorted_perm x ys).mem_iff.mp hz
      rcases List.mem_cons.mp hz2 with hh | hh
      · rw [hh]
        rcases strLeb_total x y with hh2 | hh2
        · exact absurd hh2 hxy
        · exact hh2
      · exact hy z hh

theorem sortStr_sorted (l : List String) :
    List.Pairwise (fun a b => strLeb a b = true) (sortStr l) := by
  induction l with
  | nil => simp [sortStr]
  | cons x xs ih => exact pairwise_insertSorted x (sortStr xs) ih

/-- Two lists with the same elements, both duplicate-free, sort to the
same list. -/
theorem sortStr_eq_of_perm {l1 l2 : List String} (h : l1.Perm l2) :
    sortStr l1 = sortStr l2 := by
  haveI : IsAntisymm String (fun a b => strLeb a b = true) := ⟨fun _ _ => strLeb_antisymm⟩
  exact List.eq_of_perm_of_sorted
    ((sortStr_perm l1).trans (h.trans (sortStr_perm l2).symm))
    (sortStr_sorted l1) (sortStr_sorted l2)

theorem flatMap_congr_left {α β : Type} {l : List α} {f g : α → List β}
    (h : ∀ a ∈ l, f a = g a) : l.flatMap f = l.flatMap g := by
  induction l with
  | nil => rfl
  | cons a l ih =>
    simp only [List.flatMap_cons, h a (List.mem_cons_self _ _)]
    rw [ih (fun x hx => h x (List.mem_cons_of_mem _ hx))]

theorem mdTraceGas_stable {gas1 gas2 : Nat} {g : List (String × List String)}
    {n : String} {i : Nat} {v : Finset String}
    (h1 : ((keysOf g).toFinset \ v).card < gas1)
    (h2 : ((keysOf g).toFinset \ v).card < gas2) :
    mdTraceGas gas1 g n i v = mdTraceGas gas2 g n i v := by
  induction gas1 generalizing gas2 n i v with
  | zero => omega
  | succ a ih =>
    cases gas2 with
    | zero => omega
    | succ b =>
      simp only [mdTraceGas]
      by_cases hv : n ∈ v
      · rw [if_pos hv, if_pos hv]
      · rw [if_neg hv, if_neg hv]
        congr 1
        apply flatMap_congr_left
        intro c hc
        have hlk : lookupG g n ≠ [] := by
          intro hnil
          rw [mem_sortStr, hnil] at hc
          exact (List.not_mem_nil c) hc
        have hkey : n ∈ keysOf g := lookupG_ne_nil_mem hlk
        have hlt : (((keysOf g).toFinset) \ insert n v).card <
            (((keysOf g).toFinset) \ v).card :=
          card_sdiff_insert_lt (List.mem_toFinset.mpr hkey) hv
        exact @ih b c (i + 1) (insert n v) (by omega) (by omega)

/-- The fuel-free recursive equation of the bullet trace. -/
theorem mdTrace_eq (g : List (String × List String)) (node : String)
    (indent : Nat) (visited : Finset String) :
    mdTrace g node indent visited =
      (indent, node) :: (if node ∈ visited then [] else
        (sortStr (lookupG g node)).flatMap
          (fun c => mdTrace g c (indent + 1) (insert node visited))) := by
  have hcard : ((keysOf g).toFinset).card ≤ g.length := by
    calc ((keysOf g).toFinset).card ≤ (keysOf g).length := (keysOf g).toFinset_card_le
      _ = g.length := List.length_map g Prod.fst
  simp only [mdTrace, mdTraceGas]
  by_cases hv : node ∈ visited
  · rw [if_pos hv, if_pos hv]
  · rw [if_neg hv, if_neg hv]
    congr 1
    apply flatMap_congr_left
    intro c hc
    have hlk : lookupG g node ≠ [] := by
      intro hnil
      rw [mem_sortStr, hnil] at hc
      exact (List.not_mem_nil c) hc
    have hkey : node ∈ keysOf g := lookupG_ne_nil_mem hlk
    have hlt : (((keysOf g).toFinset) \ insert node visited).card <
        ((keysOf g).toFinset).card :=
      card_sdiff_insert_le (List.mem_toFinset.mpr hkey)
    exact @mdTraceGas_stable g.length (g.length + 1) g c (indent + 1)
      (insert node visited) (by omega) (by omega)

theorem spacesN_data (i : Nat) : (spacesN i).data = List.replicate (2 * i) ' ' := by
  induction i with
  | zero => rfl
  | succ n ih =>
    show ("  " ++ spacesN n).data = _
    rw [show ("  " ++ spacesN n).data = "  ".data ++ (spacesN n).data from rfl, ih]
    rw [show (2 * (n + 1)) = 2 + 2 * n by ring, List.replicate_add]
    rfl

theorem data_append (a b : String) : (a ++ b).data = a.data ++ b.data := rfl

theorem C10_witness :
    "C" ∉ keysOf (build_component_graph
        [⟨"A.jsx", Except.ok "<B/>"⟩, ⟨"C.jsx", Except.ok ""⟩] [] false) ∧
    "C" ∉ keysD (inDegreeOf (build_component_graph
        [⟨"A.jsx", Except.ok "<B/>"⟩, ⟨"C.jsx", Except.ok ""⟩] [] false)) ∧
    "C" ∉ find_roots (build_component_graph
        [⟨"A.jsx", Except.ok "<B/>"⟩, ⟨"C.jsx", Except.ok ""⟩] [] false) ∧
    ∀ r ∈ find_roots (build_component_graph
        [⟨"A.jsx", Except.ok "<B/>"⟩, ⟨"C.jsx", Except.ok ""⟩] [] false),
      "C" ∉ (mdTrace (build_component_graph
        [⟨"A.jsx", Except.ok "<B/>"⟩, ⟨"C.jsx", Except.ok ""⟩] [] false) r 0 ∅).map
          Prod.snd :=
  C10_empty_used_not_key [⟨"A.jsx", Except.ok "<B/>"⟩, ⟨"C.jsx", Except.ok ""⟩]
    [] false "C" (by decide) (by decide)

/-- C8: the markdown content is the front matter followed, per root in
lexicographic order, by a `## root` heading, a blank line and the root's
tree; every rendered tree is a sequence of bullet lines, a bullet at
depth `indent` carrying exactly `2 * indent` leading spaces, and children
are rendered in lexicographic order at `indent + 1`. -/
theorem C8_markdown_structure :
    (∀ g : List (String × List String),
      List.Pairwise (fun a b => strLeb a b = true) (sortStr (find_roots g)) ∧
      md_content g = String.intercalate "\n" (frontMatter ++
        (sortStr (find_roots g)).flatMap
          (fun root => ["## " ++ root, "", generate_markdown_tree g root 0 ∅]))) ∧
    (∀ (g : List (String × List String)) (node : String) (indent : Nat)
        (visited : Finset String),
      generate_markdown_tree g node indent visited =
        String.join ((mdTrace g node indent visited).map bulletLine)) ∧
    (∀ p : Nat × String, (bulletLine p).data =
      List.replicate (2 * p.1) ' ' ++ ('-' :: ' ' :: p.2.data) ++ ['\n']) ∧
    (∀ (g : List (String × List String)) (node : String) (indent : Nat)
        (visited : Finset String),
      mdTrace g node indent visited =
        (indent, node) :: (if node ∈ visited then [] else
          (sortStr (lookupG g node)).flatMap
            (fun c => mdTrace g c (indent + 1) (insert node visited)))) ∧
    (∀ l : List String, List.Pairwise (fun a b => strLeb a b = true) (sortStr l)) ∧
    mainContent [⟨"A.jsx", Except.ok "<B/>"⟩] [] false =
      "---\ntitle: Component Tree\nmarkmap:\n  colorFreezeLevel: 4\n---\n\n## A\n\n- A\n  - B\n" := by
  refine ⟨fun g => ⟨sortStr_sorted _, rfl⟩,
    fun g n i v => generate_markdown_tree_trace g n i v, ?_,
    fun g n i v => mdTrace_eq g n i v, fun l => sortStr_sorted l, by decide⟩
  intro p
  show ((spacesN p.1 ++ "- " ++ p.2 ++ "\n")).data = _
  rw [data_append, data_append, data_append, spacesN_data]
  simp [List.append_assoc]

theorem lookupG_nodup {g : List (String × List String)}
    (hv : ∀ p ∈ g, (p.2 : List String).Nodup) (k : String) :
    (lookupG g k).Nodup := by
  unfold lookupG
  cases hf : g.find? (fun p => p.1 == k) with
  | none => exact List.nodup_nil
  | some p => exact hv p (List.mem_of_find?_eq_some hf)

theorem mem_targets_iff_keys {g : List (String × List String)}
    (hk : (keysOf g).Nodup) {m : String} :
    m ∈ targetsOf g ↔ ∃ k ∈ keysOf g, m ∈ lookupG g k := by
  constructor
  · intro h
    rcases mem_targets_exists h with ⟨p, hp, hm⟩
    obtain ⟨k, s⟩ := p
    have h2 := (mem_graph_lookupG hk).mp hp
    exact ⟨k, h2.1, h2.2 ▸ hm⟩
  · rintro ⟨k, -, hm⟩
    exact lookupG_subset_targets hm

theorem count_nodup (l : List String) (hl : l.Nodup) (m : String) :
    l.count m = if m ∈ l then 1 else 0 := by
  by_cases h : m ∈ l
  · rw [if_pos h]
    exact List.count_eq_one_of_mem hl h
  · rw [if_neg h]
    exact List.count_eq_zero_of_not_mem h

/-- For a well-formed graph (keys and value sets without duplicates) the
reference count of `m` is the number of keys whose value set contains
`m`. -/
theorem refCount_eq_card {g : List (String × List String)}
    (hk : (keysOf g).Nodup) (hv : ∀ p ∈ g, (p.2 : List String).Nodup) (m : String) :
    refCount g m = ((keysOf g).toFinset.filter (fun k => m ∈ lookupG g k)).card := by
  induction g with
  | nil => simp [refCount, targetsOf, keysOf]
  | cons p g' ih =>
    obtain ⟨k', s⟩ := p
    simp only [keysOf, List.map_cons, List.nodup_cons] at hk
    have hs : (s : List String).Nodup := hv (k', s) (List.mem_cons_self _ _)
    have hv' : ∀ q ∈ g', (q.2 : List String).Nodup :=
      fun q hq => hv q (List.mem_cons_of_mem _ hq)
    have hcount : refCount ((k', s) :: g') m = s.count m + refCount g' m := by
      simp [refCount, targetsOf, List.flatMap_cons, List.count_append]
    rw [hcount, ih hk.2 hv']
    have hkeys : (keysOf ((k', s) :: g')).toFinset =
        insert k' ((keysOf g').toFinset) := by
      simp [keysOf]
    rw [hkeys]
    have hfilter : ∀ k ∈ (keysOf g').toFinset,
        (m ∈ lookupG ((k', s) :: g') k) = (m ∈ lookupG g' k) := by
      intro k hkmem
      have hne : k' ≠ k := fun hh => hk.1 (hh ▸ List.mem_toFinset.mp hkmem)
      rw [lookupG_cons, if_neg hne]
    have hnotin : k' ∉ (keysOf g').toFinset :=
      fun hh => hk.1 (List.mem_toFinset.mp hh)
    rw [Finset.filter_insert]
    have hl : lookupG ((k', s) :: g') k' = s := by
      rw [lookupG_cons, if_pos rfl]
    by_cases hm : m ∈ s
    · rw [if_pos (by rw [hl]; exact hm)]
      rw [count_nodup s hs m, if_pos hm]
      rw [Finset.card_insert_of_not_mem
        (fun hh => hnotin (Finset.mem_of_mem_filter k' hh))]
      have : (Finset.filter (fun k => m ∈ lookupG ((k', s) :: g') k)
          (keysOf g').toFinset) = (Finset.filter (fun k => m ∈ lookupG g' k)
          (keysOf g').toFinset) := by
        apply Finset.filter_congr
        intro k hkmem
        rw [hfilter k hkmem]
      rw [this]
      omega
    · rw [if_neg (by rw [hl]; exact hm)]
      rw [count_nodup s hs m, if_neg hm]
      have : (Finset.filter (fun k => m ∈ lookupG ((k', s) :: g') k)
          (keysOf g').toFinset) = (Finset.filter (fun k => m ∈ lookupG g' k)
          (keysOf g').toFinset) := by
        apply Finset.filter_congr
        intro k hkmem
        rw [hfilter k hkmem]
      rw [this]
      omega

/-- Rendering depends on the graph only through its sorted adjacency. -/
theorem genMd_ext {g1 g2 : List (String × List String)}
    (hext : ∀ k, sortStr (lookupG g1 k) = sortStr (lookupG g2 k)) :
    ∀ (N : Nat) (v : Finset String) (n : String) (i : Nat),
      ((keysOf g1).toFinset \ v).card ≤ N →
      generate_markdown_tree g1 n i v = generate_markdown_tree g2 n i v := by
  intro N
  induction N with
  | zero =>
    intro v n i hle
    rw [generate_markdown_tree_eq, generate_markdown_tree_eq]
    by_cases hv : n ∈ v
    · rw [if_pos hv, if_pos hv]
    · rw [if_neg hv, if_neg hv]
      congr 1
      rw [← hext n]
      congr 1
      apply List.map_congr_left
      intro c hc
      exfalso
      have hkey : n ∈ keysOf g1 := lookupG_ne_nil_mem (fun hnil => by
        rw [mem_sortStr, hnil] at hc
        exact (List.not_mem_nil c) hc)
      have : n ∈ (keysOf g1).toFinset \ v :=
        Finset.mem_sdiff.mpr ⟨List.mem_toFinset.mpr hkey, hv⟩
      have := Finset.card_pos.mpr ⟨n, this⟩
      omega
  | succ N ih =>
    intro v n i hle
    rw [generate_markdown_tree_eq, generate_markdown_tree_eq]
    by_cases hv : n ∈ v
    · rw [if_pos hv, if_pos hv]
    · rw [if_neg hv, if_neg hv]
      congr 1
      rw [← hext n]
      congr 1
      apply List.map_congr_left
      intro c hc
      have hkey : n ∈ keysOf g1 := lookupG_ne_nil_mem (fun hnil => by
        rw [mem_sortStr, hnil] at hc
        exact (List.not_mem_nil c) hc)
      have hlt : ((keysOf g1).toFinset \ insert n v).card <
          ((keysOf g1).toFinset \ v).card :=
        card_sdiff_insert_lt (List.mem_toFinset.mpr hkey) hv
      exact ih (insert n v) c (i + 1) (by omega)

/-- C9: the pipeline from the discovered files to the markdown content is
deterministic — it depends only on the set of discovered files, not on
the order the file system reports them (the one run-dependent input):
permuting the file list leaves the output byte-identical, since roots and
children are sorted before rendering. -/
theorem C9_deterministic (files1 files2 : List SFile) (libs : List String)
    (po : Bool) (hperm : files1.Perm files2) :
    mainContent files1 libs po = mainContent files2 libs po := by
  have hk1 := nodup_keysOf_build files1 libs po
  have hk2 := nodup_keysOf_build files2 libs po
  have hv1 := valnodup_build files1 libs po
  have hv2 := valnodup_build files2 libs po
  have hcomp : ∀ t, t ∈ componentNames files1 ↔ t ∈ componentNames files2 :=
    fun t => (hperm.map (fun f => extract_component_name f.path)).mem_iff
  have hlk : ∀ k t, t ∈ lookupG (build_component_graph files1 libs po) k ↔
      t ∈ lookupG (build_component_graph files2 libs po) k := by
    intro k t
    rw [mem_lookupG_build, mem_lookupG_build]
    constructor
    · rintro ⟨f, hf, hn, hu, hc⟩
      refine ⟨f, hperm.mem_iff.mp hf, hn, hu, ?_⟩
      rcases hc with hc | hc
      · exact Or.inl hc
      · exact Or.inr ((hcomp t).mp hc)
    · rintro ⟨f, hf, hn, hu, hc⟩
      refine ⟨f, hperm.mem_iff.mpr hf, hn, hu, ?_⟩
      rcases hc with hc | hc
      · exact Or.inl hc
      · exact Or.inr ((hcomp t).mpr hc)
  have hkeys : ∀ m, m ∈ keysOf (build_component_graph files1 libs po) ↔
      m ∈ keysOf (build_component_graph files2 libs po) := by
    intro m
    rw [mem_keysOf_build, mem_keysOf_build]
    constructor
    · rintro ⟨f, hf, hn, t, ht, hc⟩
      refine ⟨f, hperm.mem_iff.mp hf, hn, t, ht, ?_⟩
      rcases hc with hc | hc
      · exact Or.inl hc
      · exact Or.inr ((hcomp t).mp hc)
    · rintro ⟨f, hf, hn, t, ht, hc⟩
      refine ⟨f, hperm.mem_iff.mpr hf, hn, t, ht, ?_⟩
      rcases hc with hc | hc
      · exact Or.inl hc
      · exact Or.inr ((hcomp t).mpr hc)
  have hkeysF : (keysOf (build_component_graph files1 libs po)).toFinset =
      (keysOf (build_component_graph files2 libs po)).toFinset := by
    apply Finset.ext
    intro m
    rw [List.mem_toFinset, List.mem_toFinset]
    exact hkeys m
  have hsort : ∀ k, sortStr (lookupG (build_component_graph files1 libs po) k) =
      sortStr (lookupG (build_component_graph files2 libs po) k) := by
    intro k
    apply sortStr_eq_of_perm
    apply (List.perm_ext_iff_of_nodup (lookupG_nodup hv1 k) (lookupG_nodup hv2 k)).mpr
    exact fun t => hlk k t
  have htar : ∀ m, m ∈ targetsOf (build_component_graph files1 libs po) ↔
      m ∈ targetsOf (build_component_graph files2 libs po) := by
    intro m
    rw [mem_targets_iff_keys hk1, mem_targets_iff_keys hk2]
    constructor
    · rintro ⟨k, hkm, hm⟩
      exact ⟨k, (hkeys k).mp hkm, (hlk k m).mp hm⟩
    · rintro ⟨k, hkm, hm⟩
      exact ⟨k, (hkeys k).mpr hkm, (hlk k m).mpr hm⟩
  have href : ∀ m, refCount (build_component_graph files1 libs po) m =
      refCount (build_component_graph files2 libs po) m := by
    intro m
    rw [refCount_eq_card hk1 hv1 m, refCount_eq_card hk2 hv2 m, hkeysF]
    congr 1
    apply Finset.filter_congr
    intro k hkmem
    exact hlk k m
  have hroots : sortStr (find_roots (build_component_graph files1 libs po)) =
      sortStr (find_roots (build_component_graph files2 libs po)) := by
    apply sortStr_eq_of_perm
    apply (List.perm_ext_iff_of_nodup (nodup_find_roots _) (nodup_find_roots _)).mpr
    intro m
    rw [mem_find_roots_iff, mem_find_roots_iff, href m]
    simp only [hkeys m, htar m]
  show md_content _ = md_content _
  unfold md_content
  rw [hroots]
  congr 1
  congr 1
  apply flatMap_congr_left
  intro r hr
  have hmd : generate_markdown_tree (build_component_graph files1 libs po) r 0 ∅ =
      generate_markdown_tree (build_component_graph files2 libs po) r 0 ∅ :=
    genMd_ext hsort
      (((keysOf (build_component_graph files1 libs po)).toFinset \ ∅).card)
      ∅ r 0 (le_refl _)
  rw [hmd]

theorem C9_witness :
    mainContent [⟨"A.jsx", Except.ok "<B/>"⟩, ⟨"B.jsx", Except.ok "<C/>"⟩] [] false =
      mainContent [⟨"B.jsx", Except.ok "<C/>"⟩, ⟨"A.jsx", Except.ok "<B/>"⟩] [] false :=
  C9_deterministic
    [⟨"A.jsx", Except.ok "<B/>"⟩, ⟨"B.jsx", Except.ok "<C/>"⟩]
    [⟨"B.jsx", Except.ok "<C/>"⟩, ⟨"A.jsx", Except.ok "<B/>"⟩] [] false
    (List.Perm.swap (⟨"B.jsx", Except.ok "<C/>"⟩ : SFile)
      (⟨"A.jsx", Except.ok "<B/>"⟩ : SFile) [])

/-- C4: a file whose content contains a named import of `B` from a module
string that exactly matches an entry of the ignore list has `B` in its
ignored set and therefore excluded from its used-set; the used-set is
exactly the tag-derived set minus the ignored-import set. -/
theorem C4_ignored_import_excluded (content : String) (libs : List String)
    (B lib path : String) (hlib : lib ∈ libs) (hBne : B ≠ "")
    (himp : ∃ p ∈ scanNamedImports content.data, (⟨p.2⟩ : String) = lib ∧
      ∃ u ∈ splitComma p.1, parseNamedComp u = B.data) :
    B ∉ usedOf ⟨path, .ok content⟩ libs ∧
    (usedOf ⟨path, .ok content⟩ libs).toFinset =
      (tagNames content).toFinset \ (ignoredOf content libs).toFinset := by
  have hBdata : ¬ B.data.isEmpty = true := by
    intro hh
    exact hBne (String.ext (List.isEmpty_iff.mp hh))
  have hBign : B ∈ ignoredOf content libs := by
    rcases himp with ⟨p, hp, hplib, u, hu, hparse⟩
    unfold ignoredOf
    rw [List.mem_dedup, List.mem_append]
    right
    apply List.mem_flatMap.mpr
    refine ⟨p, List.mem_filter.mpr ⟨hp, ?_⟩, ?_⟩
    · rw [← hplib] at hlib
      exact (contains_iff _ _).mpr hlib
    · apply List.mem_filterMap.mpr
      refine ⟨parseNamedComp u, List.mem_map.mpr ⟨u, hu, rfl⟩, ?_⟩
      rw [hparse]
      rw [if_neg hBdata]
  have hused : ∀ x, x ∈ usedOf ⟨path, .ok content⟩ libs ↔
      (x ∈ tagNames content ∧ x ∉ ignoredOf content libs) := by
    intro x
    show x ∈ (extract_used_components ⟨path, Except.ok content⟩ libs).val ↔ _
    simp [extract_used_components, extract_imported_ignored_components,
      List.mem_filter, List.mem_dedup, contains_iff]
  constructor
  · intro hmem
    exact ((hused B).mp hmem).2 hBign
  · apply Finset.ext
    intro x
    rw [List.mem_toFinset, Finset.mem_sdiff, List.mem_toFinset, List.mem_toFinset]
    exact hused x

theorem C4_witness :
    ("B" : String) ∉ usedOf
      ⟨"A.jsx", Except.ok "import \x7b B \x7d from 'mylib'\n<B/>"⟩ ["mylib"] ∧
    (usedOf ⟨"A.jsx", Except.ok "import \x7b B \x7d from 'mylib'\n<B/>"⟩
      ["mylib"]).toFinset =
      (tagNames "import \x7b B \x7d from 'mylib'\n<B/>").toFinset \
        (ignoredOf "import \x7b B \x7d from 'mylib'\n<B/>" ["mylib"]).toFinset :=
  C4_ignored_import_excluded "import \x7b B \x7d from 'mylib'\n<B/>" ["mylib"]
    "B" "mylib" "A.jsx" (by decide) (by decide) (by decide)

theorem word_not_space {c : Char} (h : isWordChar c = true) : isPySpace c = false := by
  rcases Bool.eq_false_or_eq_true (isPySpace c) with ht | hf
  · exfalso
    simp only [isPySpace, Bool.or_eq_true, beq_iff_eq] at ht
    rcases ht with ((((rfl | rfl) | rfl) | rfl) | rfl) | rfl <;> exact absurd h (by decide)
  · exact hf

theorem word_not_quote {c : Char} (h : isWordChar c = true) : isQuote c = false := by
  rcases Bool.eq_false_or_eq_true (isQuote c) with ht | hf
  · exfalso
    simp only [isQuote, Bool.or_eq_true, beq_iff_eq] at ht
    rcases ht with rfl | rfl <;> exact absurd h (by decide)
  · exact hf

theorem word_ne_rbrace {c : Char} (h : isWordChar c = true) : (c == '\x7d') = false := by
  rcases Bool.eq_false_or_eq_true (c == '\x7d') with ht | hf
  · exfalso
    rw [show c = '\x7d' from by simpa using ht] at h
    exact absurd h (by decide)
  · exact hf

theorem word_ne_lbrace {c : Char} (h : isWordChar c = true) : (c == '\x7b') = false := by
  rcases Bool.eq_false_or_eq_true (c == '\x7b') with ht | hf
  · exfalso
    rw [show c = '\x7b' from by simpa using ht] at h
    exact absurd h (by decide)
  · exact hf

theorem word_ne_comma {c : Char} (h : isWordChar c = true) : c ≠ ',' := by
  intro hh
  rw [hh] at h
  exact absurd h (by decide)

theorem word_ne_space_char {c : Char} (h : isWordChar c = true) : c ≠ ' ' := by
  intro hh
  rw [hh] at h
  exact absurd h (by decide)

theorem eatLit_self_append (cs r : List Char) : eatLit cs (cs ++ r) = some r := by
  induction cs with
  | nil => rfl
  | cons c cs ih => simp [eatLit, ih]

theorem eatLit_eq_append {cs l r : List Char} (h : eatLit cs l = some r) :
    l = cs ++ r := by
  induction cs generalizing l with
  | nil =>
    have hh : l = r := by simpa [eatLit] using h
    simp [hh]
  | cons c cs ih =>
    cases l with
    | nil => simp [eatLit] at h
    | cons x xs =>
      simp only [eatLit] at h
      split at h
      · rename_i hx
        rw [List.cons_append, ← ih h, hx]
      · exact absurd h (by simp)

theorem takeWhile_append_all {p : Char → Bool} {u v : List Char}
    (hu : ∀ c ∈ u, p c = true) : (u ++ v).takeWhile p = u ++ v.takeWhile p := by
  induction u with
  | nil => rfl
  | cons a u ih =>
    simp only [List.cons_append, List.takeWhile_cons, hu a (List.mem_cons_self _ _)]
    rw [ih (fun c hc => hu c (List.mem_cons_of_mem _ hc))]
    simp

theorem dropWhile_append_all {p : Char → Bool} {u v : List Char}
    (hu : ∀ c ∈ u, p c = true) : (u ++ v).dropWhile p = v.dropWhile p := by
  induction u with
  | nil => rfl
  | cons a u ih =>
    simp only [List.cons_append, List.dropWhile_cons, hu a (List.mem_cons_self _ _)]
    simpa using ih (fun c hc => hu c (List.mem_cons_of_mem _ hc))

theorem dropWhile_cons_false {p : Char → Bool} {a : Char} {l : List Char}
    (h : p a = false) : (a :: l).dropWhile p = a :: l := by
  simp [List.dropWhile_cons, h]

theorem takeWhile_cons_false {p : Char → Bool} {a : Char} {l : List Char}
    (h : p a = false) : (a :: l).takeWhile p = [] := by
  simp [List.takeWhile_cons, h]

theorem splitComma_no_comma {u : List Char} (hu : ∀ c ∈ u, c ≠ ',') :
    splitComma u = [u] := by
  induction u with
  | nil => rfl
  | cons c u ih =>
    show (if c = ',' then [] :: splitComma u else
      match splitComma u with
      | [] => [[c]]
      | grp :: gs => (c :: grp) :: gs) = [c :: u]
    rw [if_neg (hu c (List.mem_cons_self _ _))]
    rw [ih (fun x hx => hu x (List.mem_cons_of_mem _ hx))]

theorem isPrefixOf_self_append (cs r : List Char) : cs.isPrefixOf (cs ++ r) = true := by
  induction cs with
  | nil => simp [List.isPrefixOf]
  | cons c cs ih => simp [List.isPrefixOf, ih]

theorem beforeAs_word_append {X : List Char} (rest : List Char)
    (hX : ∀ c ∈ X, isWordChar c = true) :
    beforeAs (X ++ (' ' :: 'a' :: 's' :: ' ' :: rest)) = X := by
  induction X with
  | nil =>
    show (if " as ".data.isPrefixOf (' ' :: 'a' :: 's' :: ' ' :: rest) then []
      else ' ' :: beforeAs ('a' :: 's' :: ' ' :: rest)) = []
    have hpre : " as ".data.isPrefixOf (' ' :: 'a' :: 's' :: ' ' :: rest) = true := by
      have := isPrefixOf_self_append " as ".data rest
      simpa using this
    rw [if_pos hpre]
  | cons c X ih =>
    show (if " as ".data.isPrefixOf (c :: (X ++ (' ' :: 'a' :: 's' :: ' ' :: rest))) then []
      else c :: beforeAs (X ++ (' ' :: 'a' :: 's' :: ' ' :: rest))) = c :: X
    have hne : (c == ' ') = false := by
      simpa using word_ne_space_char (hX c (List.mem_cons_self _ _))
    have hne2 : (' ' == c) = false := by
      have := word_ne_space_char (hX c (List.mem_cons_self _ _))
      simpa using Ne.symm this
    have hnp : " as ".data.isPrefixOf (c :: (X ++ (' ' :: 'a' :: 's' :: ' ' :: rest))) = false := by
      rw [show " as ".data = [' ', 'a', 's', ' '] from rfl]
      simp [List.isPrefixOf, hne2]
    rw [if_neg (by simp [hnp])]
    rw [ih (fun x hx => hX x (List.mem_cons_of_mem _ hx))]

theorem pyStrip_word {u : List Char} (hu : ∀ c ∈ u, isWordChar c = true) :
    pyStrip u = u := by
  unfold pyStrip
  cases u with
  | nil => rfl
  | cons a u =>
    rw [dropWhile_cons_false (word_not_space (hu a (List.mem_cons_self _ _)))]
    cases hrev : (a :: u).reverse with
    | nil => exact absurd hrev (by simp)
    | cons b v =>
      have hb : b ∈ a :: u := by
        rw [show b ∈ a :: u ↔ b ∈ (a :: u).reverse from (List.mem_reverse).symm, hrev]
        exact List.mem_cons_self _ _
      have h1 : (b :: v).dropWhile isPySpace = b :: v :=
        dropWhile_cons_false (word_not_space (hu b hb))
      rw [h1, ← hrev, List.reverse_reverse]

theorem matchDefault_none_empty : matchDefaultImport [] = none := rfl

theorem matchDefault_none_not_i {c : Char} (l : List Char) (hc : c ≠ 'i') :
    matchDefaultImport (c :: l) = none := by
  unfold matchDefaultImport
  rw [show "import".data = ['i', 'm', 'p', 'o', 'r', 't'] from rfl]
  simp [eatLit, hc]

theorem hv2_space_then {c : Char} {rest : List Char}
    (hcs : isPySpace c = false) (hcu : isUpperA c = false) :
    ∀ w r2, eatWhile1 isPySpace (' ' :: c :: rest) = some (w, r2) →
      eatClass isUpperA r2 = none := by
  intro w r2 h
  simp only [eatWhile1] at h
  rw [if_pos (by decide)] at h
  simp only [Option.some.injEq, Prod.mk.injEq] at h
  have hr2 : r2 = (c :: rest).dropWhile isPySpace := h.2.symm
  rw [dropWhile_cons_false hcs] at hr2
  subst hr2
  simp [eatClass, hcu]

/-- A maximal word run followed by input that does not start with a word
character can never begin a default-import match: either the literal
`import` fails, or (when the run is exactly `import`) the mandatory
whitespace or the capitalized name that must follow are missing. -/
theorem matchDefault_word_append_none {u v : List Char}
    (hu : ∀ c ∈ u, isWordChar c = true)
    (hv1 : ∀ c l2, v = c :: l2 → isWordChar c = false)
    (hv2 : ∀ w r2, eatWhile1 isPySpace v = some (w, r2) →
      eatClass isUpperA r2 = none) :
    matchDefaultImport (u ++ v) = none := by
  unfold matchDefaultImport
  cases he : eatLit "import".data (u ++ v) with
  | none => rfl
  | some r =>
    have hwl : ∀ c ∈ "import".data, isWordChar c = true := by decide
    have hdec : u ++ v = "import".data ++ r := eatLit_eq_append he
    have hsplit : ∃ u2, u = "import".data ++ u2 ∧ r = u2 ++ v := by
      clear he hv2
      revert u
      generalize hcs : "import".data = cs at hwl
      clear hcs
      induction cs generalizing r with
      | nil =>
        intro u hu hdec
        exact ⟨u, rfl, by simpa using hdec.symm⟩
      | cons c cs ih =>
        intro u hu hdec
        cases u with
        | nil =>
          exfalso
          simp only [List.nil_append] at hdec
          cases v with
          | nil => simp at hdec
          | cons d v2 =>
            have hdc : d = c := by
              have := congrArg (fun l => l.head?) hdec
              simpa using this
            have hw := hwl c (List.mem_cons_self _ _)
            have hdw := hv1 d v2 rfl
            rw [hdc] at hdw
            rw [hdw] at hw
            cases hw
        | cons a u2 =>
          have hac : a = c := by
            have := congrArg (fun l => l.head?) hdec
            simpa using this
          have htail : u2 ++ v = cs ++ r := by
            have := congrArg List.tail hdec
            simpa using this
          rcases ih r (fun x hx => hwl x (List.mem_cons_of_mem _ hx))
            (fun x hx => hu x (List.mem_cons_of_mem _ hx)) htail with ⟨u3, h1, h2⟩
          exact ⟨u3, by rw [hac, h1, List.cons_append], h2⟩
    rcases hsplit with ⟨u2, hu2, hr⟩
    subst hr
    cases u2 with
    | nil =>
      show (some (([] : List Char) ++ v)).bind _ = none
      simp only [List.nil_append, Option.bind]
      cases hw : eatWhile1 isPySpace v with
      | none => rfl
      | some p =>
        obtain ⟨w, r2⟩ := p
        simp [hw, hv2 w r2 hw]
    | cons c u3 =>
      have hcw : isWordChar c = true := by
        apply hu c
        rw [hu2]
        exact List.mem_append_right _ (List.mem_cons_self _ _)
      show (some ((c :: u3) ++ v)).bind _ = none
      simp only [List.cons_append, Option.bind]
      have : eatWhile1 isPySpace (c :: (u3 ++ v)) = none := by
        simp [eatWhile1, word_not_space hcw]
      simp [this]

theorem matchNamed_none_not_i {c : Char} (l : List Char) (hc : c ≠ 'i') :
    matchNamedImport (c :: l) = none := by
  unfold matchNamedImport
  rw [show "import".data = ['i', 'm', 'p', 'o', 'r', 't'] from rfl]
  simp [eatLit, hc]

/-- The named-import regex matches the aliased-import template exactly,
capturing the full brace group and the module name, and consuming the
whole input. -/
theorem matchNamedImport_template (X Y lib rest : List Char)
    (hX : ∀ c ∈ X, isWordChar c = true)
    (hY : ∀ c ∈ Y, isWordChar c = true)
    (hlib : ∀ c ∈ lib, isWordChar c = true) (hlibne : lib ≠ []) :
    matchNamedImport ("import".data ++ (' ' :: '\x7b' :: ' ' :: (X ++ (' ' :: 'a' :: 's' :: ' ' ::
        (Y ++ (' ' :: '\x7d' :: ' ' :: 'f' :: 'r' :: 'o' :: 'm' :: ' ' :: '\'' ::
          (lib ++ ('\'' :: rest)))))))) =
      some ((' ' :: (X ++ (' ' :: 'a' :: 's' :: ' ' :: (Y ++ [' ']))), lib), rest) := by
  have hpX : ∀ c ∈ X, (!(c == '\x7d')) = true := fun c hc => by
    rw [word_ne_rbrace (hX c hc)]
    rfl
  have hpY : ∀ c ∈ Y, (!(c == '\x7d')) = true := fun c hc => by
    rw [word_ne_rbrace (hY c hc)]
    rfl
  obtain ⟨l0, lib', rfl⟩ : ∃ l0 lib', lib = l0 :: lib' := by
    cases lib with
    | nil => exact absurd rfl hlibne
    | cons a b => exact ⟨a, b, rfl⟩
  have s1 : isPySpace ' ' = true := by decide
  have s2 : isPySpace '\x7b' = false := by decide
  have s3 : isPySpace 'f' = false := by decide
  have s4 : isPySpace '\'' = false := by decide
  have pa : (!(' ' == '\x7d')) = true := by decide
  have pb : (!('a' == '\x7d')) = true := by decide
  have pc : (!('s' == '\x7d')) = true := by decide
  have pd : (!('\x7d' == '\x7d')) = false := by decide
  have e1 : (' ' :: '\x7b' :: ' ' :: (X ++ (' ' :: 'a' :: 's' :: ' ' ::
      (Y ++ (' ' :: '\x7d' :: ' ' :: 'f' :: 'r' :: 'o' :: 'm' :: ' ' :: '\'' ::
        ((l0 :: lib') ++ ('\'' :: rest))))))).dropWhile isPySpace =
      '\x7b' :: ' ' :: (X ++ (' ' :: 'a' :: 's' :: ' ' ::
      (Y ++ (' ' :: '\x7d' :: ' ' :: 'f' :: 'r' :: 'o' :: 'm' :: ' ' :: '\'' ::
        ((l0 :: lib') ++ ('\'' :: rest)))))) := by
    simp [List.dropWhile_cons, s1, s2]
  have e3 : eatWhile1 (fun c => !(c == '\x7d')) (' ' :: (X ++ (' ' :: 'a' :: 's' :: ' ' ::
      (Y ++ (' ' :: '\x7d' :: ' ' :: 'f' :: 'r' :: 'o' :: 'm' :: ' ' :: '\'' ::
        ((l0 :: lib') ++ ('\'' :: rest))))))) =
      some ((' ' :: (X ++ (' ' :: 'a' :: 's' :: ' ' :: (Y ++ [' ']))),
        '\x7d' :: ' ' :: 'f' :: 'r' :: 'o' :: 'm' :: ' ' :: '\'' ::
          ((l0 :: lib') ++ ('\'' :: rest)))) := by
    simp only [eatWhile1]
    rw [if_pos (by decide)]
    rw [takeWhile_append_all hpX, dropWhile_append_all hpX]
    simp only [List.takeWhile_cons, List.dropWhile_cons, pa, pb, pc, pd, if_true, if_false]
    rw [takeWhile_append_all hpY, dropWhile_append_all hpY]
    simp only [List.takeWhile_cons, List.dropWhile_cons, pa, pd, if_true, if_false]
    simp
  have e5 : (' ' :: 'f' :: 'r' :: 'o' :: 'm' :: ' ' :: '\'' ::
      ((l0 :: lib') ++ ('\'' :: rest))).dropWhile isPySpace =
      'f' :: 'r' :: 'o' :: 'm' :: ' ' :: '\'' :: ((l0 :: lib') ++ ('\'' :: rest)) := by
    simp [List.dropWhile_cons, s1, s3]
  have e6 : eatLit "from".data ('f' :: 'r' :: 'o' :: 'm' :: ' ' :: '\'' ::
      ((l0 :: lib') ++ ('\'' :: rest))) = some (' ' :: '\'' :: ((l0 :: lib') ++ ('\'' :: rest))) := by
    rw [show "from".data = ['f', 'r', 'o', 'm'] from rfl]
    exact eatLit_self_append ['f', 'r', 'o', 'm'] _
  have e7 : (' ' :: '\'' :: ((l0 :: lib') ++ ('\'' :: rest))).dropWhile isPySpace =
      '\'' :: ((l0 :: lib') ++ ('\'' :: rest)) := by
    simp [List.dropWhile_cons, s1, s4]
  have e9 : eatWhile1 (fun c => !isQuote c) ((l0 :: lib') ++ ('\'' :: rest)) =
      some (l0 :: lib', '\'' :: rest) := by
    have hq0 : (!isQuote l0) = true := by
      rw [word_not_quote (hlib l0 (List.mem_cons_self _ _))]
      rfl
    have hqlib : ∀ c ∈ lib', (fun c => !isQuote c) c = true := fun c hc => by
      show (!isQuote c) = true
      rw [word_not_quote (hlib c (List.mem_cons_of_mem _ hc))]
      rfl
    simp only [List.cons_append, eatWhile1]
    rw [if_pos hq0]
    rw [takeWhile_append_stop hqlib (by decide), dropWhile_append_stop2 hqlib (by decide)]
  unfold matchNamedImport
  rw [eatLit_self_append]
  simp only [Option.bind, e1]
  simp only [eatClass, show (('\x7b' : Char) == '\x7b') = true from rfl, if_true]
  simp only [Option.bind, e3]
  simp only [eatClass, show (('\x7d' : Char) == '\x7d') = true from rfl, if_true]
  simp only [Option.bind, e5, e6, e7]
  simp only [eatClass, show isQuote '\'' = true from rfl, if_true]
  simp only [Option.bind, e9]
  simp only [eatClass, show isQuote '\'' = true from rfl, if_true]

/-- Input template for the aliased-import analysis: the file body
`import \x7b X as Y \x7d from 'lib'` followed by `rest`. -/
def c5Import (X Y lib rest : List Char) : List Char :=
  "import".data ++ (' ' :: '\x7b' :: ' ' :: (X ++ (' ' :: 'a' :: 's' :: ' ' ::
    (Y ++ (' ' :: '\x7d' :: ' ' :: 'f' :: 'r' :: 'o' :: 'm' :: ' ' :: '\'' ::
      (lib ++ ('\'' :: rest)))))))

/-- Input template continuation: the two tag usages `<X/>` and `<Y/>`. -/
def c5Tags (X Y : List Char) : List Char :=
  '\n' :: '<' :: (X ++ ('/' :: '>' :: '\n' :: '<' :: (Y ++ ['/', '>'])))

theorem upper_word {c : Char} (h : isUpperA c = true) : isWordChar c = true := by
  simp only [isUpperA, Bool.and_eq_true, decide_eq_true_eq] at h
  simp [isWordChar, h.1, h.2]

theorem eatWhile1_space_none {c : Char} (v : List Char) (hc : isPySpace c = false) :
    eatWhile1 isPySpace (c :: v) = none := by
  simp [eatWhile1, hc]

/-- If the literal `import` succeeds on a word run `u` followed by input `v`
starting with a non-word character, the run absorbs the whole literal. -/
theorem eatLit_word_split {u v r : List Char}
    (hu : ∀ c ∈ u, isWordChar c = true)
    (hv1 : ∀ c l2, v = c :: l2 → isWordChar c = false)
    (he : eatLit "import".data (u ++ v) = some r) :
    ∃ u2, u = "import".data ++ u2 ∧ r = u2 ++ v := by
  have hwl : ∀ c ∈ "import".data, isWordChar c = true := by decide
  have hdec : u ++ v = "import".data ++ r := eatLit_eq_append he
  clear he
  revert u
  generalize hcs : "import".data = cs at hwl
  clear hcs
  induction cs generalizing r with
  | nil =>
    intro u hu hdec
    exact ⟨u, rfl, by simpa using hdec.symm⟩
  | cons c cs ih =>
    intro u hu hdec
    cases u with
    | nil =>
      exfalso
      simp only [List.nil_append] at hdec
      cases v with
      | nil => simp at hdec
      | cons d v2 =>
        have hdc : d = c := by
          have := congrArg (fun l => l.head?) hdec
          simpa using this
        have hw := hwl c (List.mem_cons_self _ _)
        have hdw := hv1 d v2 rfl
        rw [hdc] at hdw
        rw [hdw] at hw
        cases hw
    | cons a u2 =>
      have hac : a = c := by
        have := congrArg (fun l => l.head?) hdec
        simpa using this
      have htail : u2 ++ v = cs ++ r := by
        have := congrArg List.tail hdec
        simpa using this
      rcases ih (fun x hx => hwl x (List.mem_cons_of_mem _ hx))
        (fun x hx => hu x (List.mem_cons_of_mem _ hx)) htail with ⟨u3, h1, h2⟩
      exact ⟨u3, by rw [hac, h1, List.cons_append], h2⟩

/-- A maximal word run followed by input that does not start with a word
character, and whose space-stripped remainder does not start with an
opening brace, can never begin a named-import match. -/
theorem matchNamed_word_append_none {u v : List Char}
    (hu : ∀ c ∈ u, isWordChar c = true)
    (hv1 : ∀ c l2, v = c :: l2 → isWordChar c = false)
    (hv2 : ∀ c l2, v.dropWhile isPySpace = c :: l2 → (c == '\x7b') = false) :
    matchNamedImport (u ++ v) = none := by
  unfold matchNamedImport
  cases he : eatLit "import".data (u ++ v) with
  | none => rfl
  | some r =>
    obtain ⟨u2, hu2, hr⟩ := eatLit_word_split hu hv1 he
    subst hr
    cases u2 with
    | nil =>
      show (some (([] : List Char) ++ v)).bind _ = none
      simp only [List.nil_append, Option.bind]
      cases hd : v.dropWhile isPySpace with
      | nil => simp [hd, eatClass]
      | cons c l2 => simp [hd, eatClass, hv2 c l2 hd]
    | cons c u3 =>
      have hcw : isWordChar c = true := by
        apply hu c
        rw [hu2]
        exact List.mem_append_right _ (List.mem_cons_self _ _)
      show (some ((c :: u3) ++ v)).bind _ = none
      simp only [List.cons_append, Option.bind]
      have h1 : (c :: (u3 ++ v)).dropWhile isPySpace = c :: (u3 ++ v) :=
        dropWhile_cons_false (word_not_space hcw)
      have h2 : eatClass (fun x => x == '\x7b') (c :: (u3 ++ v)) = none := by
        simp [eatClass, word_ne_lbrace hcw]
      simp [h1, h2]

theorem suffix_append_cases {s u v : List Char} (h : s <:+ u ++ v) :
    s <:+ v ∨ ∃ u2, u2 <:+ u ∧ s = u2 ++ v := by
  obtain ⟨t, ht⟩ := h
  rcases List.append_eq_append_iff.mp ht with ⟨a2, ha1, ha2⟩ | ⟨c2, hc1, hc2⟩
  · right
    exact ⟨a2, ⟨t, ha1.symm⟩, ha2⟩
  · left
    exact ⟨c2, hc2.symm⟩

theorem scanDefaultImportsGas_nil_of_fail (gas : Nat) (l : List Char)
    (h : ∀ x rest, (x :: rest) <:+ l → matchDefaultImport (x :: rest) = none) :
    scanDefaultImportsGas gas l = [] := by
  induction gas generalizing l with
  | zero => rfl
  | succ n ih =>
    cases l with
    | nil => rfl
    | cons x rest =>
      simp only [scanDefaultImportsGas]
      rw [h x rest (List.suffix_refl _)]
      exact ih rest (fun y r2 hs => h y r2 (hs.trans (List.suffix_cons x rest)))

/-- If the default-import regex matches at no position of the input, its
scan returns the empty list. -/
theorem scanDefaultImports_nil_of_fail {l : List Char}
    (h : ∀ x rest, (x :: rest) <:+ l → matchDefaultImport (x :: rest) = none) :
    scanDefaultImports l = [] :=
  scanDefaultImportsGas_nil_of_fail l.length l h

theorem scanNamedImportsGas_nil_of_fail (gas : Nat) (l : List Char)
    (h : ∀ x rest, (x :: rest) <:+ l → matchNamedImport (x :: rest) = none) :
    scanNamedImportsGas gas l = [] := by
  induction gas generalizing l with
  | zero => rfl
  | succ n ih =>
    cases l with
    | nil => rfl
    | cons x rest =>
      simp only [scanNamedImportsGas]
      rw [h x rest (List.suffix_refl _)]
      exact ih rest (fun y r2 hs => h y r2 (hs.trans (List.suffix_cons x rest)))

/-- If the named-import regex matches at no position of the input, its
scan returns the empty list. -/
theorem scanNamedImports_nil_of_fail {l : List Char}
    (h : ∀ x rest, (x :: rest) <:+ l → matchNamedImport (x :: rest) = none) :
    scanNamedImports l = [] :=
  scanNamedImportsGas_nil_of_fail l.length l h

/-- One successful step of the named-import scan. -/
theorem scanNamed_cons_some {l : List Char} {g : List Char × List Char}
    {r : List Char} (hne : l ≠ []) (h : matchNamedImport l = some (g, r)) :
    scanNamedImports l = g :: scanNamedImports r := by
  obtain ⟨x, rest, rfl⟩ : ∃ x rest, l = x :: rest := by
    cases l with
    | nil => exact absurd rfl hne
    | cons a b => exact ⟨a, b, rfl⟩
  have hlen := matchNamedImport_length h
  simp only [List.length_cons] at hlen
  show scanNamedImportsGas (x :: rest).length (x :: rest) = _
  simp only [List.length_cons, scanNamedImportsGas]
  rw [h]
  show g :: scanNamedImportsGas rest.length r = _
  rw [@scanNamedImportsGas_stable rest.length r.length r (by omega) (le_refl _)]
  rfl

/-- The tag scan ignores a prefix containing no opening angle bracket. -/
theorem scanTags_append_no_lt {u v : List Char} (hu : ∀ c ∈ u, c ≠ '<') :
    scanTags (u ++ v) = scanTags v := by
  induction u with
  | nil => rfl
  | cons a u ih =>
    have ha : a ≠ '<' := hu a (List.mem_cons_self _ _)
    have ih2 := ih (fun c hc => hu c (List.mem_cons_of_mem _ hc))
    cases hw : u ++ v with
    | nil =>
      rcases List.append_eq_nil.mp hw with ⟨rfl, rfl⟩
      show scanTags [a] = scanTags []
      rfl
    | cons b w =>
      show scanTags (a :: (u ++ v)) = scanTags v
      rw [hw, scanTags_eq, if_neg ha, ← hw, ih2]

theorem matchDefault_suffix_nil :
    ∀ x rest, (x :: rest) <:+ ([] : List Char) → matchDefaultImport (x :: rest) = none := by
  intro x rest hs
  exact absurd (List.suffix_nil.mp hs) (by simp)

theorem matchDefault_suffix_step {a : Char} {tail : List Char} (ha : a ≠ 'i')
    (htail : ∀ x rest, (x :: rest) <:+ tail → matchDefaultImport (x :: rest) = none) :
    ∀ x rest, (x :: rest) <:+ a :: tail → matchDefaultImport (x :: rest) = none := by
  intro x rest hs
  rcases List.suffix_cons_iff.mp hs with heq | hs2
  · rw [heq]
    exact matchDefault_none_not_i _ ha
  · exact htail x rest hs2

theorem hv1_concrete {a : Char} {t : List Char} (ha : isWordChar a = false) :
    ∀ c l2, (a :: t) = c :: l2 → isWordChar c = false := by
  intro c l2 hh
  injection hh with h1 _
  rw [← h1]
  exact ha

theorem hv2_nonspace {a : Char} {v2 : List Char} (ha : isPySpace a = false) :
    ∀ w r2, eatWhile1 isPySpace (a :: v2) = some (w, r2) → eatClass isUpperA r2 = none := by
  intro w r2 hh
  rw [eatWhile1_space_none v2 ha] at hh
  exact Option.noConfusion hh

theorem matchDefault_suffix_wordblock {W v : List Char}
    (hW : ∀ c ∈ W, isWordChar c = true)
    (hv1 : ∀ c l2, v = c :: l2 → isWordChar c = false)
    (hv2 : ∀ w r2, eatWhile1 isPySpace v = some (w, r2) → eatClass isUpperA r2 = none)
    (htail : ∀ x rest, (x :: rest) <:+ v → matchDefaultImport (x :: rest) = none) :
    ∀ x rest, (x :: rest) <:+ W ++ v → matchDefaultImport (x :: rest) = none := by
  intro x rest hs
  rcases suffix_append_cases hs with hsv | ⟨u2, hu2, heq⟩
  · exact htail x rest hsv
  · rw [heq]
    exact matchDefault_word_append_none (fun c hc => hW c (hu2.subset hc)) hv1 hv2

theorem matchNamed_suffix_nil :
    ∀ x rest, (x :: rest) <:+ ([] : List Char) → matchNamedImport (x :: rest) = none := by
  intro x rest hs
  exact absurd (List.suffix_nil.mp hs) (by simp)

theorem matchNamed_suffix_step {a : Char} {tail : List Char} (ha : a ≠ 'i')
    (htail : ∀ x rest, (x :: rest) <:+ tail → matchNamedImport (x :: rest) = none) :
    ∀ x rest, (x :: rest) <:+ a :: tail → matchNamedImport (x :: rest) = none := by
  intro x rest hs
  rcases List.suffix_cons_iff.mp hs with heq | hs2
  · rw [heq]
    exact matchNamed_none_not_i _ ha
  · exact htail x rest hs2

theorem hv2named_nonspace {a : Char} {t : List Char} (ha : isPySpace a = false)
    (hb : (a == '\x7b') = false) :
    ∀ c l2, ((a :: t).dropWhile isPySpace) = c :: l2 → (c == '\x7b') = false := by
  intro c l2 hh
  rw [dropWhile_cons_false ha] at hh
  injection hh with h1 _
  rw [← h1]
  exact hb

theorem matchNamed_suffix_wordblock {W v : List Char}
    (hW : ∀ c ∈ W, isWordChar c = true)
    (hv1 : ∀ c l2, v = c :: l2 → isWordChar c = false)
    (hv2 : ∀ c l2, v.dropWhile isPySpace = c :: l2 → (c == '\x7b') = false)
    (htail : ∀ x rest, (x :: rest) <:+ v → matchNamedImport (x :: rest) = none) :
    ∀ x rest, (x :: rest) <:+ W ++ v → matchNamedImport (x :: rest) = none := by
  intro x rest hs
  rcases suffix_append_cases hs with hsv | ⟨u2, hu2, heq⟩
  · exact htail x rest hsv
  · rw [heq]
    exact matchNamed_word_append_none (fun c hc => hW c (hu2.subset hc)) hv1 hv2

/-- The default-import regex matches at no position of the aliased-import
template followed by the two tag usages. -/
theorem matchDefault_c5_none (X Y L : List Char)
    (hX : ∀ c ∈ X, isWordChar c = true)
    (hY : ∀ c ∈ Y, isWordChar c = true)
    (hL : ∀ c ∈ L, isWordChar c = true) :
    ∀ x rest, (x :: rest) <:+ c5Import X Y L (c5Tags X Y) →
      matchDefaultImport (x :: rest) = none := by
  have h7 := matchDefault_suffix_step (show ('>' : Char) ≠ 'i' by decide) matchDefault_suffix_nil
  have h6 := matchDefault_suffix_step (show ('/' : Char) ≠ 'i' by decide) h7
  have h5y := matchDefault_suffix_wordblock hY (hv1_concrete (by decide))
    (hv2_nonspace (by decide)) h6
  have h5d := matchDefault_suffix_step (show ('<' : Char) ≠ 'i' by decide) h5y
  have h5c := matchDefault_suffix_step (show ('\n' : Char) ≠ 'i' by decide) h5d
  have h5b := matchDefault_suffix_step (show ('>' : Char) ≠ 'i' by decide) h5c
  have h5 := matchDefault_suffix_step (show ('/' : Char) ≠ 'i' by decide) h5b
  have h4x := matchDefault_suffix_wordblock hX (hv1_concrete (by decide))
    (hv2_nonspace (by decide)) h5
  have h4c := matchDefault_suffix_step (show ('<' : Char) ≠ 'i' by decide) h4x
  have h4b := matchDefault_suffix_step (show ('\n' : Char) ≠ 'i' by decide) h4c
  have h4 := matchDefault_suffix_step (show ('\'' : Char) ≠ 'i' by decide) h4b
  have h3L := matchDefault_suffix_wordblock hL (hv1_concrete (by decide))
    (hv2_nonspace (by decide)) h4
  have h3i := matchDefault_suffix_step (show ('\'' : Char) ≠ 'i' by decide) h3L
  have h3h := matchDefault_suffix_step (show (' ' : Char) ≠ 'i' by decide) h3i
  have h3g := matchDefault_suffix_step (show ('m' : Char) ≠ 'i' by decide) h3h
  have h3f := matchDefault_suffix_step (show ('o' : Char) ≠ 'i' by decide) h3g
  have h3e := matchDefault_suffix_step (show ('r' : Char) ≠ 'i' by decide) h3f
  have h3d := matchDefault_suffix_step (show ('f' : Char) ≠ 'i' by decide) h3e
  have h3c := matchDefault_suffix_step (show (' ' : Char) ≠ 'i' by decide) h3d
  have h3b := matchDefault_suffix_step (show ('\x7d' : Char) ≠ 'i' by decide) h3c
  have h3 := matchDefault_suffix_step (show (' ' : Char) ≠ 'i' by decide) h3b
  have h2y := matchDefault_suffix_wordblock hY (hv1_concrete (by decide))
    (hv2_space_then (by decide) (by decide)) h3
  have h2d := matchDefault_suffix_step (show (' ' : Char) ≠ 'i' by decide) h2y
  have h2c := matchDefault_suffix_step (show ('s' : Char) ≠ 'i' by decide) h2d
  have h2b := matchDefault_suffix_step (show ('a' : Char) ≠ 'i' by decide) h2c
  have h2 := matchDefault_suffix_step (show (' ' : Char) ≠ 'i' by decide) h2b
  have h1x := matchDefault_suffix_wordblock hX (hv1_concrete (by decide))
    (hv2_space_then (by decide) (by decide)) h2
  have h1c := matchDefault_suffix_step (show (' ' : Char) ≠ 'i' by decide) h1x
  have h1b := matchDefault_suffix_step (show ('\x7b' : Char) ≠ 'i' by decide) h1c
  have h1 := matchDefault_suffix_step (show (' ' : Char) ≠ 'i' by decide) h1b
  have h0 := matchDefault_suffix_wordblock (show ∀ c ∈ "import".data, isWordChar c = true by decide)
    (hv1_concrete (by decide)) (hv2_space_then (by decide) (by decide)) h1
  intro x rest hs
  unfold c5Import c5Tags at hs
  exact h0 x rest hs

/-- The named-import regex matches at no position of the two tag usages. -/
theorem matchNamed_c5Tags_none (X Y : List Char)
    (hX : ∀ c ∈ X, isWordChar c = true)
    (hY : ∀ c ∈ Y, isWordChar c = true) :
    ∀ x rest, (x :: rest) <:+ c5Tags X Y →
      matchNamedImport (x :: rest) = none := by
  have h7 := matchNamed_suffix_step (show ('>' : Char) ≠ 'i' by decide) matchNamed_suffix_nil
  have h6 := matchNamed_suffix_step (show ('/' : Char) ≠ 'i' by decide) h7
  have h5y := matchNamed_suffix_wordblock hY (hv1_concrete (by decide))
    (hv2named_nonspace (by decide) (by decide)) h6
  have h5d := matchNamed_suffix_step (show ('<' : Char) ≠ 'i' by decide) h5y
  have h5c := matchNamed_suffix_step (show ('\n' : Char) ≠ 'i' by decide) h5d
  have h5b := matchNamed_suffix_step (show ('>' : Char) ≠ 'i' by decide) h5c
  have h5 := matchNamed_suffix_step (show ('/' : Char) ≠ 'i' by decide) h5b
  have h4x := matchNamed_suffix_wordblock hX (hv1_concrete (by decide))
    (hv2named_nonspace (by decide) (by decide)) h5
  have h4c := matchNamed_suffix_step (show ('<' : Char) ≠ 'i' by decide) h4x
  have h4 := matchNamed_suffix_step (show ('\n' : Char) ≠ 'i' by decide) h4c
  intro x rest hs
  unfold c5Tags at hs
  exact h4 x rest hs

/-- Python `strip` on a string of the form `" m "` whose core `m` neither
starts nor ends with whitespace returns the core. -/
theorem pyStrip_wrap {m : List Char}
    (h1 : ∀ c l2, m = c :: l2 → isPySpace c = false)
    (h2 : ∀ c l2, m = l2 ++ [c] → isPySpace c = false)
    (hmne : m ≠ []) :
    pyStrip (' ' :: (m ++ [' '])) = m := by
  obtain ⟨c0, m', rfl⟩ : ∃ c0 m', m = c0 :: m' := by
    cases m with
    | nil => exact absurd rfl hmne
    | cons a b => exact ⟨a, b, rfl⟩
  obtain ⟨m2, cl, hconc0⟩ := (List.eq_nil_or_concat (c0 :: m')).resolve_left (by simp)
  have hconc : c0 :: m' = m2 ++ [cl] := by
    rw [hconc0, List.concat_eq_append]
  have hc0 : isPySpace c0 = false := h1 c0 m' rfl
  have hcl : isPySpace cl = false := h2 cl m2 hconc
  have hA : ((' ' :: ((c0 :: m') ++ [' '])).dropWhile isPySpace) = (c0 :: m') ++ [' '] := by
    rw [List.dropWhile_cons, if_pos (by decide)]
    exact dropWhile_cons_false hc0
  have hB : ((c0 :: m') ++ [' ']).reverse = ' ' :: (cl :: m2.reverse) := by
    rw [hconc]
    simp
  have hC : (' ' :: (cl :: m2.reverse)).dropWhile isPySpace = cl :: m2.reverse := by
    rw [List.dropWhile_cons, if_pos (by decide)]
    exact dropWhile_cons_false hcl
  show (((' ' :: ((c0 :: m') ++ [' '])).dropWhile isPySpace).reverse.dropWhile
    isPySpace).reverse = c0 :: m'
  rw [hA, hB, hC, hconc]
  simp

/-- Parsing one aliased named-import item of the captured brace group
resolves to the original exported name, not the alias. -/
theorem parseNamedComp_template (X Y : List Char)
    (hX : ∀ c ∈ X, isWordChar c = true) (hXne : X ≠ [])
    (hY : ∀ c ∈ Y, isWordChar c = true) (hYne : Y ≠ []) :
    parseNamedComp (' ' :: (X ++ (' ' :: 'a' :: 's' :: ' ' :: (Y ++ [' '])))) = X := by
  obtain ⟨x0, X', rfl⟩ : ∃ x0 X', X = x0 :: X' := by
    cases X with
    | nil => exact absurd rfl hXne
    | cons a b => exact ⟨a, b, rfl⟩
  obtain ⟨Y', yl, hYc0⟩ := (List.eq_nil_or_concat Y).resolve_left hYne
  have hYc : Y = Y' ++ [yl] := by
    rw [hYc0, List.concat_eq_append]
  have hx0 : isPySpace x0 = false := word_not_space (hX x0 (List.mem_cons_self _ _))
  have hyl : isPySpace yl = false := by
    refine word_not_space (hY yl ?_)
    rw [hYc]
    simp
  have hm1 : ∀ c l2, ((x0 :: X') ++ (' ' :: 'a' :: 's' :: ' ' :: Y)) = c :: l2 →
      isPySpace c = false := by
    intro c l2 hh
    simp only [List.cons_append] at hh
    injection hh with ha _
    rw [← ha]
    exact hx0
  have hm2 : ∀ c l2, ((x0 :: X') ++ (' ' :: 'a' :: 's' :: ' ' :: Y)) = l2 ++ [c] →
      isPySpace c = false := by
    intro c l2 hh
    have hr := congrArg List.reverse hh
    rw [hYc] at hr
    simp only [List.reverse_append, List.reverse_cons, List.reverse_nil, List.nil_append,
      List.cons_append, List.append_assoc, List.singleton_append] at hr
    have hhead := congrArg (fun l => l.head?) hr
    simp at hhead
    rw [← hhead]
    exact hyl
  have hshape : (' ' :: ((x0 :: X') ++ (' ' :: 'a' :: 's' :: ' ' :: (Y ++ [' '])))) =
      (' ' :: (((x0 :: X') ++ (' ' :: 'a' :: 's' :: ' ' :: Y)) ++ [' '])) := by
    simp
  unfold parseNamedComp
  rw [hshape, pyStrip_wrap hm1 hm2 (by simp), beforeAs_word_append Y hX]
  exact pyStrip_word hX

theorem word_ne_lt {c : Char} (h : isWordChar c = true) : c ≠ '<' := by
  intro hh
  rw [hh] at h
  exact absurd h (by decide)

/-- The named-import scan of the template finds exactly the one import,
capturing the brace group and the module name. -/
theorem scanNamed_c5 (X Y L : List Char)
    (hX : ∀ c ∈ X, isWordChar c = true)
    (hY : ∀ c ∈ Y, isWordChar c = true)
    (hL : ∀ c ∈ L, isWordChar c = true) (hLne : L ≠ []) :
    scanNamedImports (c5Import X Y L (c5Tags X Y)) =
      [(' ' :: (X ++ (' ' :: 'a' :: 's' :: ' ' :: (Y ++ [' ']))), L)] := by
  have hm : matchNamedImport (c5Import X Y L (c5Tags X Y)) =
      some ((' ' :: (X ++ (' ' :: 'a' :: 's' :: ' ' :: (Y ++ [' ']))), L), c5Tags X Y) := by
    unfold c5Import
    exact matchNamedImport_template X Y L (c5Tags X Y) hX hY hL hLne
  have hne : c5Import X Y L (c5Tags X Y) ≠ [] := by
    unfold c5Import
    rw [show ("import".data : List Char) = 'i' :: "mport".data from rfl]
    simp
  rw [scanNamed_cons_some hne hm]
  rw [scanNamedImports_nil_of_fail (matchNamed_c5Tags_none X Y hX hY)]

/-- The default-import scan of the template finds nothing. -/
theorem scanDefault_c5 (X Y L : List Char)
    (hX : ∀ c ∈ X, isWordChar c = true)
    (hY : ∀ c ∈ Y, isWordChar c = true)
    (hL : ∀ c ∈ L, isWordChar c = true) :
    scanDefaultImports (c5Import X Y L (c5Tags X Y)) = [] :=
  scanDefaultImports_nil_of_fail (matchDefault_c5_none X Y L hX hY hL)

/-- The tag scan of the two tag usages captures both component names. -/
theorem scanTags_c5Tags (x0 y0 : Char) (X' Y' : List Char)
    (hx0 : isUpperA x0 = true) (hX' : ∀ c ∈ X', isWordChar c = true)
    (hy0 : isUpperA y0 = true) (hY' : ∀ c ∈ Y', isWordChar c = true) :
    scanTags (c5Tags (x0 :: X') (y0 :: Y')) = [x0 :: X', y0 :: Y'] := by
  have hwsl : isWordChar '/' = false := by decide
  unfold c5Tags
  rw [scanTags_eq, if_neg (by decide)]
  simp only [List.cons_append]
  rw [scanTags_eq, if_pos rfl, if_pos hx0]
  rw [takeWhile_append_stop hX' hwsl, dropWhile_append_stop2 hX' hwsl]
  rw [scanTags_eq, if_neg (by decide)]
  rw [scanTags_eq, if_neg (by decide)]
  rw [scanTags_eq, if_neg (by decide)]
  rw [scanTags_eq, if_pos rfl, if_pos hy0]
  rw [takeWhile_append_stop hY' hwsl, dropWhile_append_stop2 hY' hwsl]
  rw [scanTags_eq, if_neg (by decide)]
  rfl

/-- The tag scan of the whole template content sees only the tag region. -/
theorem scanTags_c5 (x0 y0 : Char) (X' Y' L : List Char)
    (hx0 : isUpperA x0 = true) (hX' : ∀ c ∈ X', isWordChar c = true)
    (hy0 : isUpperA y0 = true) (hY' : ∀ c ∈ Y', isWordChar c = true)
    (hL : ∀ c ∈ L, isWordChar c = true) :
    scanTags (c5Import (x0 :: X') (y0 :: Y') L (c5Tags (x0 :: X') (y0 :: Y'))) =
      [x0 :: X', y0 :: Y'] := by
  have hX : ∀ c ∈ x0 :: X', isWordChar c = true := by
    intro c hc
    rcases List.mem_cons.mp hc with rfl | h2
    · exact upper_word hx0
    · exact hX' c h2
  have hY : ∀ c ∈ y0 :: Y', isWordChar c = true := by
    intro c hc
    rcases List.mem_cons.mp hc with rfl | h2
    · exact upper_word hy0
    · exact hY' c h2
  have hsplit : c5Import (x0 :: X') (y0 :: Y') L (c5Tags (x0 :: X') (y0 :: Y')) =
      ("import".data ++ (' ' :: '\x7b' :: ' ' :: ((x0 :: X') ++ (' ' :: 'a' :: 's' :: ' ' ::
        ((y0 :: Y') ++ (' ' :: '\x7d' :: ' ' :: 'f' :: 'r' :: 'o' :: 'm' :: ' ' :: '\'' ::
          (L ++ ['\'']))))))) ++ c5Tags (x0 :: X') (y0 :: Y') := by
    unfold c5Import
    simp
  have hu : ∀ c ∈ ("import".data ++ (' ' :: '\x7b' :: ' ' :: ((x0 :: X') ++ (' ' :: 'a' :: 's' :: ' ' ::
        ((y0 :: Y') ++ (' ' :: '\x7d' :: ' ' :: 'f' :: 'r' :: 'o' :: 'm' :: ' ' :: '\'' ::
          (L ++ ['\'']))))))), c ≠ '<' := by
    intro c hc hlt
    subst hlt
    simp only [List.mem_append, List.mem_cons, List.mem_singleton, List.not_mem_nil,
      or_false] at hc
    rcases hc with hc | hc | hc | hc | hc | hc | hc | hc | hc | hc | hc | hc | hc | hc | hc |
      hc | hc | hc | hc | hc | hc <;> first
      | exact absurd hc (by decide)
      | exact word_ne_lt (hX _ (List.mem_cons.mpr hc)) rfl
      | exact word_ne_lt (hY _ (List.mem_cons.mpr hc)) rfl
      | exact word_ne_lt (hL _ hc) rfl
  rw [hsplit, scanTags_append_no_lt hu]
  exact scanTags_c5Tags x0 y0 X' Y' hx0 hX' hy0 hY'

theorem cons_word {a : Char} {l : List Char} (ha : isUpperA a = true)
    (hl : ∀ c ∈ l, isWordChar c = true) : ∀ c ∈ a :: l, isWordChar c = true := by
  intro c hc
  rcases List.mem_cons.mp hc with rfl | h2
  · exact upper_word ha
  · exact hl c h2

/-- The ignored-import set computed from the template content is exactly
the original exported name, not the alias. -/
theorem ignoredOf_c5 (X Y L : List Char)
    (hX : ∀ c ∈ X, isWordChar c = true) (hXne : X ≠ [])
    (hY : ∀ c ∈ Y, isWordChar c = true) (hYne : Y ≠ [])
    (hL : ∀ c ∈ L, isWordChar c = true) (hLne : L ≠ []) :
    ignoredOf ⟨c5Import X Y L (c5Tags X Y)⟩ [⟨L⟩] = [(⟨X⟩ : String)] := by
  have hnc : ∀ c ∈ (' ' :: (X ++ (' ' :: 'a' :: 's' :: ' ' :: (Y ++ ([' '] : List Char))))),
      c ≠ ',' := by
    intro c hc hcm
    subst hcm
    simp only [List.mem_cons, List.mem_append, List.mem_singleton, List.not_mem_nil,
      or_false] at hc
    rcases hc with hc | hc | hc | hc | hc | hc | hc | hc <;> first
      | exact absurd hc (by decide)
      | exact word_ne_comma (hX _ hc) rfl
      | exact word_ne_comma (hY _ hc) rfl
  have hXe : X.isEmpty = false := by
    cases X with
    | nil => exact absurd rfl hXne
    | cons a b => rfl
  have hcnt : ([(⟨L⟩ : String)] : List String).contains (⟨L⟩ : String) = true := by simp
  simp only [ignoredOf]
  rw [scanDefault_c5 X Y L hX hY hL]
  rw [scanNamed_c5 X Y L hX hY hL hLne]
  simp only [List.filter_nil, List.map_nil, List.nil_append, List.filter_cons, hcnt,
    if_true, List.flatMap_cons, List.flatMap_nil, List.append_nil]
  rw [splitComma_no_comma hnc]
  simp only [List.map_cons, List.map_nil]
  rw [parseNamedComp_template X Y hX hXne hY hYne]
  simp only [List.filterMap_cons, List.filterMap_nil, hXe, Bool.false_eq_true, if_false]
  simp

/-- The used-set of the template file keeps the used alias and excludes
the used (but ignored) original name. -/
theorem usedOf_c5 (x0 y0 : Char) (X' Y' L : List Char) (p : String)
    (hx0 : isUpperA x0 = true) (hX' : ∀ c ∈ X', isWordChar c = true)
    (hy0 : isUpperA y0 = true) (hY' : ∀ c ∈ Y', isWordChar c = true)
    (hL : ∀ c ∈ L, isWordChar c = true) (hLne : L ≠ [])
    (hne : (⟨x0 :: X'⟩ : String) ≠ ⟨y0 :: Y'⟩) :
    usedOf ⟨p, Except.ok ⟨c5Import (x0 :: X') (y0 :: Y') L (c5Tags (x0 :: X') (y0 :: Y'))⟩⟩
        [⟨L⟩] = [(⟨y0 :: Y'⟩ : String)] := by
  have hX : ∀ c ∈ x0 :: X', isWordChar c = true := cons_word hx0 hX'
  have hY : ∀ c ∈ y0 :: Y', isWordChar c = true := cons_word hy0 hY'
  show ((tagNames ⟨c5Import (x0 :: X') (y0 :: Y') L (c5Tags (x0 :: X') (y0 :: Y'))⟩).dedup.filter
    (fun b => !((extract_imported_ignored_components
      ⟨p, Except.ok ⟨c5Import (x0 :: X') (y0 :: Y') L (c5Tags (x0 :: X') (y0 :: Y'))⟩⟩
      [⟨L⟩]).val.contains b))) = [(⟨y0 :: Y'⟩ : String)]
  have hval : (extract_imported_ignored_components
      ⟨p, Except.ok ⟨c5Import (x0 :: X') (y0 :: Y') L (c5Tags (x0 :: X') (y0 :: Y'))⟩⟩
      [⟨L⟩]).val =
      ignoredOf ⟨c5Import (x0 :: X') (y0 :: Y') L (c5Tags (x0 :: X') (y0 :: Y'))⟩ [⟨L⟩] := rfl
  rw [hval, ignoredOf_c5 (x0 :: X') (y0 :: Y') L hX (by simp) hY (by simp) hL hLne]
  have ht : tagNames ⟨c5Import (x0 :: X') (y0 :: Y') L (c5Tags (x0 :: X') (y0 :: Y'))⟩ =
      [(⟨x0 :: X'⟩ : String), ⟨y0 :: Y'⟩] := by
    unfold tagNames
    rw [show (⟨c5Import (x0 :: X') (y0 :: Y') L (c5Tags (x0 :: X') (y0 :: Y'))⟩ : String).data =
      c5Import (x0 :: X') (y0 :: Y') L (c5Tags (x0 :: X') (y0 :: Y')) from rfl]
    rw [scanTags_c5 x0 y0 X' Y' L hx0 hX' hy0 hY' hL]
    rfl
  rw [ht]
  have hmem : (⟨x0 :: X'⟩ : String) ∉ ([⟨y0 :: Y'⟩] : List String) := by simp [hne]
  rw [List.dedup_cons_of_not_mem hmem]
  rw [show ([(⟨y0 :: Y'⟩ : String)] : List String).dedup = [⟨y0 :: Y'⟩] from by
    rw [List.dedup_cons_of_not_mem (List.not_mem_nil _), List.dedup_nil]]
  have hf1 : (!(([(⟨x0 :: X'⟩ : String)] : List String).contains ⟨x0 :: X'⟩)) = false := by
    simp
  have hf2 : (!(([(⟨x0 :: X'⟩ : String)] : List String).contains ⟨y0 :: Y'⟩)) = true := by
    simp [Ne.symm hne]
  simp only [List.filter_cons, List.filter_nil, hf1, hf2, if_true, Bool.false_eq_true,
    if_false]

/-- C5: for an aliased named import `import \x7b X as Y \x7d from 'lib'`
with `lib` in the ignore list, the name added to the ignored set is the
original exported name X and not the alias Y; consequently, in a file that
also renders `<X/>` and `<Y/>`, the usage of X is excluded from the
used-set while the usage of Y is not (here X = x0 :: X', Y = y0 :: Y' are
capitalized identifiers and lib = L a nonempty word). -/
theorem C5_alias_resolves_to_original (x0 y0 : Char) (X' Y' L : List Char) (p : String)
    (hx0 : isUpperA x0 = true) (hX' : ∀ c ∈ X', isWordChar c = true)
    (hy0 : isUpperA y0 = true) (hY' : ∀ c ∈ Y', isWordChar c = true)
    (hL : ∀ c ∈ L, isWordChar c = true) (hLne : L ≠ [])
    (hne : (⟨x0 :: X'⟩ : String) ≠ ⟨y0 :: Y'⟩) :
    ignoredOf ⟨c5Import (x0 :: X') (y0 :: Y') L (c5Tags (x0 :: X') (y0 :: Y'))⟩ [⟨L⟩] =
        [(⟨x0 :: X'⟩ : String)] ∧
    (⟨y0 :: Y'⟩ : String) ∉
        ignoredOf ⟨c5Import (x0 :: X') (y0 :: Y') L (c5Tags (x0 :: X') (y0 :: Y'))⟩ [⟨L⟩] ∧
    (⟨x0 :: X'⟩ : String) ∈
        tagNames ⟨c5Import (x0 :: X') (y0 :: Y') L (c5Tags (x0 :: X') (y0 :: Y'))⟩ ∧
    (⟨y0 :: Y'⟩ : String) ∈
        tagNames ⟨c5Import (x0 :: X') (y0 :: Y') L (c5Tags (x0 :: X') (y0 :: Y'))⟩ ∧
    usedOf ⟨p, Except.ok ⟨c5Import (x0 :: X') (y0 :: Y') L (c5Tags (x0 :: X') (y0 :: Y'))⟩⟩
        [⟨L⟩] = [(⟨y0 :: Y'⟩ : String)] := by
  have hX : ∀ c ∈ x0 :: X', isWordChar c = true := cons_word hx0 hX'
  have hY : ∀ c ∈ y0 :: Y', isWordChar c = true := cons_word hy0 hY'
  have hig := ignoredOf_c5 (x0 :: X') (y0 :: Y') L hX (by simp) hY (by simp) hL hLne
  have ht : tagNames ⟨c5Import (x0 :: X') (y0 :: Y') L (c5Tags (x0 :: X') (y0 :: Y'))⟩ =
      [(⟨x0 :: X'⟩ : String), ⟨y0 :: Y'⟩] := by
    unfold tagNames
    rw [show (⟨c5Import (x0 :: X') (y0 :: Y') L (c5Tags (x0 :: X') (y0 :: Y'))⟩ : String).data =
      c5Import (x0 :: X') (y0 :: Y') L (c5Tags (x0 :: X') (y0 :: Y')) from rfl]
    rw [scanTags_c5 x0 y0 X' Y' L hx0 hX' hy0 hY' hL]
    rfl
  refine ⟨hig, ?_, ?_, ?_, usedOf_c5 x0 y0 X' Y' L p hx0 hX' hy0 hY' hL hLne hne⟩
  · rw [hig]
    simp [Ne.symm hne]
  · rw [ht]
    simp
  · rw [ht]
    simp

theorem C5_witness :
    ignoredOf ⟨c5Import ['A'] ['B'] "mylib".data (c5Tags ['A'] ['B'])⟩ [⟨"mylib".data⟩] =
        [(⟨['A']⟩ : String)] ∧
    (⟨['B']⟩ : String) ∉
        ignoredOf ⟨c5Import ['A'] ['B'] "mylib".data (c5Tags ['A'] ['B'])⟩ [⟨"mylib".data⟩] ∧
    (⟨['A']⟩ : String) ∈ tagNames ⟨c5Import ['A'] ['B'] "mylib".data (c5Tags ['A'] ['B'])⟩ ∧
    (⟨['B']⟩ : String) ∈ tagNames ⟨c5Import ['A'] ['B'] "mylib".data (c5Tags ['A'] ['B'])⟩ ∧
    usedOf ⟨"A.jsx", Except.ok ⟨c5Import ['A'] ['B'] "mylib".data (c5Tags ['A'] ['B'])⟩⟩
        [⟨"mylib".data⟩] = [(⟨['B']⟩ : String)] :=
  C5_alias_resolves_to_original 'A' 'B' [] [] "mylib".data "A.jsx" (by decide) (by decide)
    (by decide) (by decide) (by decide) (by decide) (by decide)

end RCTG
